import Mathlib

/-!
Verification of the `bloom-filters` repository (nervosnetwork/bloom-filters).

The development shallowly embeds the Rust sources:
* `src/buckets.rs` — the bit-packed bucket storage (`Buckets`, `Word = usize`,
  modelled on a 64-bit target, so `BITS_PER_WORD = 64`, `BYTES_PER_WORD = 8`);
* `src/hash.rs` — the default double-hashing kernel (`DefaultHashIter`);
* `src/classic.rs`, `src/counting.rs`, `src/stable.rs` — the three filters;
* `src/const_generics/buckets.rs` — the `update` (bitwise-OR merge) routine,
  which `classic.rs` calls on its bucket array.

Machine integers are modelled as `Nat` with explicit `% 2 ^ 64` where the Rust
code wraps, and signed `i8` arithmetic as `Int` with explicit two's-complement
wrapping (the semantics of `+` on `i8` in release builds; debug builds panic on
the same inputs).  Fallible operations (assertions, `wrapping_rem` by zero)
return `Option`.  An item is identified with its 64-bit digest: every filter
operation first feeds the item to the configured `BuildHasher`, which produces
one deterministic `u64` digest, and afterwards only the digest is used.
-/

namespace BloomFilters

/-- Bits per storage word: `Word = usize` (`u64` in the const-generics files),
64 bits on the modelled target. -/
def BITS_PER_WORD : Nat := 64

/-- Bytes per storage word. -/
def BYTES_PER_WORD : Nat := 8

/-- Modulus of wrapping 64-bit unsigned arithmetic. -/
def WORD_MOD : Nat := 2 ^ 64

/-- Two's-complement wrap of an integer into the `i8` range `[-128, 127]`;
this is what an overflowing `i8` addition produces in a release build. -/
def wrap8 (x : Int) : Int := (x + 128) % 256 - 128

/-- The cast `u8 as i8` (two's-complement reinterpretation). -/
def toI8 (x : Nat) : Int :=
  if x % 256 < 128 then Int.ofNat (x % 256) else Int.ofNat (x % 256) - 256

/-- `Buckets::get_word` from `src/buckets.rs` (lines 120-130), recursing on a
field that straddles a word boundary.  Out-of-range word indices read 0 where
Rust would panic; the in-bounds side conditions are proved separately. -/
def getWordAux (data : List Nat) (offset length : Nat) : Nat :=
  if h : offset % 64 + length > 64 then
    getWordAux data offset (64 - offset % 64) |||
      (getWordAux data (offset + (64 - offset % 64)) (length - (64 - offset % 64)) <<<
        (64 - offset % 64))
  else
    (data.getD (offset / 64) 0 &&& ((1 <<< length) - 1) <<< (offset % 64)) >>> (offset % 64)
termination_by length
decreasing_by all_goals omega

/-- `Buckets::set_word` from `src/buckets.rs` (lines 105-118).  The bitwise
complement `!(bit_mask << word_offset)` of a `usize` is the XOR with the
all-ones word `2 ^ 64 - 1`.  `List.set` ignores out-of-range indices where
Rust would panic; in-bounds side conditions are proved separately. -/
def setWordAux (data : List Nat) (offset length w : Nat) : List Nat :=
  if h : offset % 64 + length > 64 then
    setWordAux (setWordAux data offset (64 - offset % 64) w)
      (offset + (64 - offset % 64)) (length - (64 - offset % 64)) (w >>> (64 - offset % 64))
  else
    data.set (offset / 64)
      ((data.getD (offset / 64) 0 &&& ((WORD_MOD - 1) ^^^ ((1 <<< length) - 1) <<< (offset % 64))) |||
        (w &&& ((1 <<< length) - 1)) <<< (offset % 64))
termination_by length
decreasing_by all_goals omega

/-- Bit `i` of the bit stream formed by the storage words in order, each word
contributing its 64 bits from least significant upwards. -/
def streamBit (data : List Nat) (i : Nat) : Bool :=
  Nat.testBit (data.getD (i / 64) 0) (i % 64)

/-- The `Buckets` structure from `src/buckets.rs` (lines 9-14). -/
structure Buckets where
  data : List Nat
  count : Nat
  bucket_size : Nat
  max : Nat
  deriving Repr, DecidableEq

/-- `Buckets::new` (src/buckets.rs lines 23-31): asserts `bucket_size < 8`,
zero-fills `ceil(count * bucket_size / 64)` words, `max = (1 << bucket_size) - 1`. -/
def Buckets.new (count bucket_size : Nat) : Option Buckets :=
  if bucket_size < 8 then
    some ⟨List.replicate ((count * bucket_size + (BITS_PER_WORD - 1)) / BITS_PER_WORD) 0,
      count, bucket_size, (1 <<< bucket_size) - 1⟩
  else none

/-- Little-endian bytes of one word, as emitted by `Buckets::raw_data`
(src/buckets.rs lines 57-66): byte `j` is `(w >> (8 * j)) & 0xff`. -/
def wordToBytes (w : Nat) : List Nat := (List.range 8).map fun j => w / 2 ^ (8 * j) % 256

/-- `Buckets::raw_data`: each word's little-endian bytes, in storage order. -/
def Buckets.raw_data (b : Buckets) : List Nat := (b.data.map wordToBytes).flatten

/-- Chunks of at most 8 bytes, as produced by `raw_data.chunks(BYTES_PER_WORD)`. -/
def chunksOf8 (l : List Nat) : List (List Nat) :=
  if h : l = [] then [] else l.take 8 :: chunksOf8 (l.drop 8)
termination_by l.length
decreasing_by
  have : l.length ≠ 0 := fun hl => h (List.eq_nil_of_length_eq_zero hl)
  simp only [List.length_drop]
  omega

/-- Little-endian value of a byte chunk, as reconstructed by the pointer copy
plus `to_le()` in `Buckets::with_raw_data` (src/buckets.rs lines 37-47). -/
def decodeLE : List Nat → Nat
  | [] => 0
  | b :: rest => b + 256 * decodeLE rest

/-- `Buckets::with_raw_data` (src/buckets.rs lines 34-55): asserts
`bucket_size < 8` and that the byte length equals
`ceil(count * bucket_size / 64) * 8`, then decodes each 8-byte chunk as a
little-endian word. -/
def Buckets.with_raw_data (count bucket_size : Nat) (raw : List Nat) : Option Buckets :=
  if bucket_size < 8 ∧ (count * bucket_size + (BITS_PER_WORD - 1)) / BITS_PER_WORD * 8 = raw.length
  then
    some ⟨(chunksOf8 raw).map decodeLE, count, bucket_size, (1 <<< bucket_size) - 1⟩
  else none

/-- `Buckets::len`. -/
def Buckets.len (b : Buckets) : Nat := b.count

/-- `Buckets::max_value`. -/
def Buckets.max_value (b : Buckets) : Nat := b.max

/-- `Buckets::reset`: zero every backing word. -/
def Buckets.reset (b : Buckets) : Buckets := { b with data := b.data.map fun _ => 0 }

/-- `Buckets::set` (src/buckets.rs lines 94-99): clamp the value to `max`, then
write the `bucket_size`-bit field at bit offset `bucket * bucket_size`. -/
def Buckets.set (b : Buckets) (bucket byte : Nat) : Buckets :=
  { b with
    data := setWordAux b.data (bucket * b.bucket_size) b.bucket_size
      (if byte > b.max then b.max else byte) }

/-- `Buckets::get` (src/buckets.rs lines 101-103); the trailing `% 256` is the
`as u8` cast of the returned word. -/
def Buckets.get (b : Buckets) (bucket : Nat) : Nat :=
  getWordAux b.data (bucket * b.bucket_size) b.bucket_size % 256

/-- `Buckets::increment` (src/buckets.rs lines 82-92): `self.get(bucket) as i8
+ delta` is an `i8` addition, which wraps on overflow in release builds (and
panics in debug builds); the result is then clamped to `[0, max]`. -/
def Buckets.increment (b : Buckets) (bucket : Nat) (delta : Int) : Buckets :=
  let v := wrap8 (toI8 (b.get bucket) + delta)
  b.set bucket (if v < 0 then 0 else if v > toI8 b.max then b.max else v.toNat)

/-- The enumerated fold inside `ConstBuckets::update`
(src/const_generics/buckets.rs lines 70-72): OR byte `offset` of the chunk
into the word at bit position `offset * BYTES_PER_WORD` (8 bits per step). -/
def updateWordAux (acc offset : Nat) : List Nat → Nat
  | [] => acc
  | byte :: rest => updateWordAux (acc ||| byte <<< (offset * BYTES_PER_WORD)) (offset + 1) rest

/-- The zip of words against byte chunks in `ConstBuckets::update`
(src/const_generics/buckets.rs lines 65-75): words beyond the chunks, and
chunks beyond the words, are ignored. -/
def updateWords : List Nat → List (List Nat) → List Nat
  | [], _ => []
  | w :: ws, [] => w :: ws
  | w :: ws, c :: cs => updateWordAux w 0 c :: updateWords ws cs

/-- The bucket-array OR-merge `update` called by
`UpdatableBloomFilter::update` in `src/classic.rs` (lines 45-49); its body is
the `update` of `src/const_generics/buckets.rs` lines 65-75 (identical in
`src/const_buckets.rs` lines 58-68). -/
def Buckets.update (b : Buckets) (raw : List Nat) : Buckets :=
  { b with data := updateWords b.data (chunksOf8 raw) }

/-- Well-formedness maintained by every constructor and operation of
`Buckets`: the storage holds exactly `ceil(count * bucket_size / 64)` words,
each word fits in 64 bits, `max` is `(1 << bucket_size) - 1`, and
`bucket_size < 8` (asserted at construction). -/
def Buckets.Wf (b : Buckets) : Prop :=
  b.data.length = (b.count * b.bucket_size + (BITS_PER_WORD - 1)) / BITS_PER_WORD ∧
  (∀ w ∈ b.data, w < WORD_MOD) ∧
  b.max = (1 <<< b.bucket_size) - 1 ∧
  b.bucket_size < 8

instance (b : Buckets) : Decidable b.Wf := by
  unfold Buckets.Wf; infer_instance

/-- `wrapping_rem` on `usize`: equals `%` for a nonzero divisor and panics on a
zero divisor. -/
def wrappingRem (x n : Nat) : Option Nat := if n = 0 then none else some (x % n)

/-- The probe sequence produced by draining `DefaultHashIter`
(src/hash.rs lines 87-113): `h1` is the low 32 bits of the digest, `h2` the
high 32 bits, and step `i` yields
`hash_seed.wrapping_add(h1).wrapping_add(h2.wrapping_mul(i)).wrapping_rem(n)`. -/
def hashProbes (digest seed k n : Nat) : Option (List Nat) :=
  (List.range k).mapM fun i =>
    wrappingRem (((seed + digest % 2 ^ 32) % WORD_MOD + digest / 2 ^ 32 * i % WORD_MOD) % WORD_MOD)
      n

/-- Closed form of the probe sequence when the modulus is nonzero. -/
def probeList (digest seed k n : Nat) : List Nat :=
  (List.range k).map fun i => (seed + digest % 2 ^ 32 + digest / 2 ^ 32 * i) % WORD_MOD % n

/-- The classic filter (src/classic.rs): a 1-bit-per-bucket `Buckets` plus the
default hash kernel's parameters (`hash_seed`, `k`; the modulus is
`buckets.count`). -/
structure ClassicFilter where
  buckets : Buckets
  hash_seed : Nat
  k : Nat
  deriving Repr, DecidableEq

/-- `Filter::with_raw_data` for the classic filter (src/classic.rs lines
20-24): `count = raw.len() * 8`, width 1, caller-chosen `k`. -/
def ClassicFilter.with_raw_data (raw : List Nat) (k hash_seed : Nat) : Option ClassicFilter :=
  (Buckets.with_raw_data (raw.length * 8) 1 raw).map fun bk => ⟨bk, hash_seed, k⟩

/-- Classic `insert` (src/classic.rs lines 32-34): set every probe bucket to 1. -/
def ClassicFilter.insert (f : ClassicFilter) (digest : Nat) : Option ClassicFilter :=
  (hashProbes digest f.hash_seed f.k f.buckets.count).map fun ps =>
    { f with buckets := ps.foldl (fun bk i => bk.set i 1) f.buckets }

/-- Classic `contains` (src/classic.rs lines 36-38): all probe buckets equal 1. -/
def ClassicFilter.contains (f : ClassicFilter) (digest : Nat) : Option Bool :=
  (hashProbes digest f.hash_seed f.k f.buckets.count).map fun ps =>
    ps.all fun i => f.buckets.get i == 1

/-- `UpdatableBloomFilter::update` for the classic filter (src/classic.rs
lines 45-49). -/
def ClassicFilter.update (f : ClassicFilter) (raw : List Nat) : ClassicFilter :=
  { f with buckets := f.buckets.update raw }

/-- A sequence of classic inserts. -/
def ClassicFilter.insertAll (f : ClassicFilter) (items : List Nat) : Option ClassicFilter :=
  items.foldlM ClassicFilter.insert f

/-- The counting filter (src/counting.rs). -/
structure CountingFilter where
  buckets : Buckets
  hash_seed : Nat
  k : Nat
  deriving Repr, DecidableEq

/-- Counting `insert` (src/counting.rs lines 23-25): increment every probe
bucket by 1. -/
def CountingFilter.insert (f : CountingFilter) (digest : Nat) : Option CountingFilter :=
  (hashProbes digest f.hash_seed f.k f.buckets.count).map fun ps =>
    { f with buckets := ps.foldl (fun bk i => bk.increment i 1) f.buckets }

/-- Counting `contains` (src/counting.rs lines 27-29): all probe buckets are
greater than 0. -/
def CountingFilter.contains (f : CountingFilter) (digest : Nat) : Option Bool :=
  (hashProbes digest f.hash_seed f.k f.buckets.count).map fun ps =>
    ps.all fun i => decide (0 < f.buckets.get i)

/-- Counting `remove` (src/counting.rs lines 37-39): decrement every probe
bucket by 1. -/
def CountingFilter.remove (f : CountingFilter) (digest : Nat) : Option CountingFilter :=
  (hashProbes digest f.hash_seed f.k f.buckets.count).map fun ps =>
    { f with buckets := ps.foldl (fun bk i => bk.increment i (-1)) f.buckets }

/-- A sequence of counting inserts. -/
def CountingFilter.insertAll (f : CountingFilter) (items : List Nat) : Option CountingFilter :=
  items.foldlM CountingFilter.insert f

/-- The stable filter (src/stable.rs lines 6-11): a `Buckets` plus the probe
count `k` and the per-insert decay count `p`.  Its hash kernel
(`hash_kernals` in src/lib.rs) uses no seed. -/
structure StableFilter where
  buckets : Buckets
  k : Nat
  p : Nat
  deriving Repr, DecidableEq

/-- The stable filter's probe sequence (src/stable.rs lines 62-63 and 71-72):
`lo.wrapping_add(hi.wrapping_mul(i)) % buckets.len()`, where `lo`/`hi` are the
low/high 32 bits of the digest; `%` panics on a zero bucket count. -/
def stableProbes (digest k n : Nat) : Option (List Nat) :=
  (List.range k).mapM fun i =>
    wrappingRem ((digest % 2 ^ 32 + digest / 2 ^ 32 * i % WORD_MOD) % WORD_MOD) n

/-- `Filter::decrement` of the stable filter (src/stable.rs lines 32-38) at
random offset `r`: decrement `p` consecutive buckets (mod the bucket count)
by 1. -/
def StableFilter.decrement (f : StableFilter) (r : Nat) : Option StableFilter :=
  ((List.range f.p).foldlM
      (fun bk i => (wrappingRem (r + i) bk.count).map fun bucket => bk.increment bucket (-1))
      f.buckets).map
    fun bk => { f with buckets := bk }

/-- Stable `insert` (src/stable.rs lines 57-66) with random decay offset `r`:
decay first, then hard-set every probe bucket to `max_value`. -/
def StableFilter.insert (f : StableFilter) (r digest : Nat) : Option StableFilter :=
  (f.decrement r).bind fun f1 =>
    (stableProbes digest f1.k f1.buckets.count).map fun ps =>
      { f1 with buckets := ps.foldl (fun bk i => bk.set i f1.buckets.max) f1.buckets }

/-- Stable `contains` (src/stable.rs lines 68-75): all probe buckets are
greater than 0. -/
def StableFilter.contains (f : StableFilter) (digest : Nat) : Option Bool :=
  (stableProbes digest f.k f.buckets.count).map fun ps =>
    ps.all fun i => decide (0 < f.buckets.get i)

/-- The assertions of `compute_m_num` (src/buckets.rs lines 137-141), with the
`f64` false-positive rate modelled as a rational (the comparisons `0.0 <
fp_rate` and `fp_rate < 1.0` are exact).  The count the function returns is
computed with `f64` logarithms; that numeric value is abstracted as the
explicit argument `m` — no claim depends on it. -/
def compute_m_num (m items_count : Nat) (fp_rate : ℚ) : Option Nat :=
  if 0 < items_count ∧ 0 < fp_rate ∧ fp_rate < 1 then some m else none

/-- `Buckets::with_fp_rate` (src/buckets.rs lines 17-19):
`new(compute_m_num(items_count, fp_rate), bucket_size)`. -/
def Buckets.with_fp_rate (m items_count : Nat) (fp_rate : ℚ) (bucket_size : Nat) :
    Option Buckets :=
  (compute_m_num m items_count fp_rate).bind fun count => Buckets.new count bucket_size

/-! ### Bit-level characterisation of the cross-word field access -/

theorem one_shiftLeft_sub_one (l : Nat) : (1 <<< l) - 1 = 2 ^ l - 1 := by
  rw [Nat.shiftLeft_eq, one_mul]

theorem shiftLeft_lt_shift {x n k : Nat} (hx : x < 2 ^ n) : x <<< k < 2 ^ (n + k) := by
  rw [Nat.shiftLeft_eq, Nat.pow_add]
  exact mul_lt_mul_of_pos_right hx (Nat.two_pow_pos k)

theorem getD_set_ne {l : List Nat} {i j : Nat} (h : i ≠ j) (a d : Nat) :
    (l.set i a).getD j d = l.getD j d := by
  simp [List.getD_eq_getElem?_getD, List.getElem?_set_ne h]

theorem getD_set_self {l : List Nat} {i : Nat} (h : i < l.length) (a d : Nat) :
    (l.set i a).getD i d = a := by
  simp [List.getD_eq_getElem?_getD, List.getElem?_set_self h]

/-- Bit `j` of `get_word data o l` is bit `o + j` of the word stream, for
`j < l`, and 0 beyond. -/
theorem getWordAux_testBit (data : List Nat) (o l j : Nat) :
    (getWordAux data o l).testBit j = (decide (j < l) && streamBit data (o + j)) := by
  induction l using Nat.strong_induction_on generalizing o j with
  | _ l ih =>
    rw [getWordAux]
    split
    next h =>
      have hrl : 64 - o % 64 < l := by omega
      rw [Nat.testBit_lor, Nat.testBit_shiftLeft,
        ih _ hrl o j, ih _ (by omega) (o + (64 - o % 64)) (j - (64 - o % 64))]
      by_cases hj : j < 64 - o % 64
      · have h2 : ¬(j ≥ 64 - o % 64) := by omega
        have h3 : j < l := by omega
        simp [hj, h2, h3]
      · have hge : j ≥ 64 - o % 64 := by omega
        have hidx : o + (64 - o % 64) + (j - (64 - o % 64)) = o + j := by omega
        have hd : decide (j - (64 - o % 64) < l - (64 - o % 64)) = decide (j < l) := by
          simp only [decide_eq_decide]
          omega
        rw [hidx, hd]
        simp [hj, hge]
    next h =>
      rw [Nat.testBit_shiftRight, Nat.testBit_land, Nat.testBit_shiftLeft,
        one_shiftLeft_sub_one, Nat.testBit_two_pow_sub_one]
      have e1 : o % 64 + j - o % 64 = j := by omega
      have e2 : o % 64 + j ≥ o % 64 := by omega
      rw [e1]
      by_cases hj : j < l
      · have d1 : (o + j) / 64 = o / 64 := by omega
        have d2 : (o + j) % 64 = o % 64 + j := by omega
        simp [streamBit, d1, d2, hj, e2]
      · simp [hj]

/-- The value read out of a `l`-bit field fits in `l` bits. -/
theorem getWordAux_lt (data : List Nat) (o l : Nat) : getWordAux data o l < 2 ^ l := by
  apply Nat.lt_pow_two_of_testBit
  intro i hi
  rw [getWordAux_testBit]
  simp [Nat.not_lt.mpr hi]

theorem setWordAux_length (data : List Nat) (o l w : Nat) :
    (setWordAux data o l w).length = data.length := by
  induction l using Nat.strong_induction_on generalizing data o w with
  | _ l ih =>
    rw [setWordAux]
    split
    next h => rw [ih _ (by omega), ih _ (by omega)]
    next h => exact List.length_set ..

/-- Every word stored by `set_word` fits in 64 bits (`set_word` clears any
junk bits above bit 63 of the word it touches). -/
theorem setWordAux_mem_lt (data : List Nat) (o l w : Nat)
    (hd : ∀ x ∈ data, x < WORD_MOD) : ∀ x ∈ setWordAux data o l w, x < WORD_MOD := by
  induction l using Nat.strong_induction_on generalizing data o w with
  | _ l ih =>
    rw [setWordAux]
    split
    next h => exact ih _ (by omega) _ _ _ (ih _ (by omega) _ _ _ hd)
    next h =>
      intro x hx
      rcases List.mem_or_eq_of_mem_set hx with hmem | hx
      · exact hd x hmem
      · subst hx
        have hmask : ((1 <<< l) - 1) <<< (o % 64) < 2 ^ 64 := by
          have h1 : (1 <<< l : Nat) - 1 < 2 ^ l := by
            rw [one_shiftLeft_sub_one]
            exact Nat.sub_lt (Nat.two_pow_pos l) one_pos
          exact lt_of_lt_of_le (shiftLeft_lt_shift h1)
            (Nat.pow_le_pow_right (by omega) (by omega))
        have hval : (w &&& (1 <<< l) - 1) <<< (o % 64) < 2 ^ 64 := by
          have h1 : w &&& (1 <<< l) - 1 < 2 ^ l := by
            rw [one_shiftLeft_sub_one]
            exact Nat.and_lt_two_pow w (Nat.sub_lt (Nat.two_pow_pos l) one_pos)
          exact lt_of_lt_of_le (shiftLeft_lt_shift h1)
            (Nat.pow_le_pow_right (by omega) (by omega))
        simp only [WORD_MOD]
        exact Nat.or_lt_two_pow
          (Nat.and_lt_two_pow _
            (Nat.xor_lt_two_pow (Nat.sub_lt (Nat.two_pow_pos 64) one_pos) hmask))
          hval

/-- Effect of `set_word` on the bit stream: bits `[o, o + l)` become the low
`l` bits of `w`, every other bit is untouched.  Requires the field to lie
within the backing words (Rust would panic otherwise). -/
theorem setWordAux_streamBit (data : List Nat) (o l w : Nat) (hl : 0 < l)
    (hb : o + l ≤ 64 * data.length) (i : Nat) :
    streamBit (setWordAux data o l w) i =
      if o ≤ i ∧ i < o + l then w.testBit (i - o) else streamBit data i := by
  induction l using Nat.strong_induction_on generalizing data o w with
  | _ l ih =>
    rw [setWordAux]
    split
    next h =>
      have hlen1 : (setWordAux data o (64 - o % 64) w).length = data.length :=
        setWordAux_length ..
      rw [ih _ (by omega) _ _ _ (by omega) (by rw [hlen1]; omega),
        ih _ (by omega) _ _ _ (by omega) (by omega)]
      rw [Nat.testBit_shiftRight]
      by_cases h1 : o + (64 - o % 64) ≤ i ∧ i < o + (64 - o % 64) + (l - (64 - o % 64))
      · have e1 : 64 - o % 64 + (i - (o + (64 - o % 64))) = i - o := by omega
        have h2 : o ≤ i ∧ i < o + l := by omega
        simp [h1, h2, e1]
      · by_cases h2 : o ≤ i ∧ i < o + (64 - o % 64)
        · have h3 : o ≤ i ∧ i < o + l := by omega
          simp [h1, h2, h3]
        · have h3 : ¬(o ≤ i ∧ i < o + l) := by omega
          simp [h1, h2, h3]
    next h =>
      have hwi : o / 64 < data.length := by omega
      simp only [streamBit]
      by_cases hsame : i / 64 = o / 64
      · rw [hsame, getD_set_self hwi]
        rw [Nat.testBit_lor, Nat.testBit_land, Nat.testBit_xor, Nat.testBit_shiftLeft,
          Nat.testBit_shiftLeft, Nat.testBit_land, one_shiftLeft_sub_one,
          Nat.testBit_two_pow_sub_one]
        have h64 : i % 64 < 64 := by omega
        have hm : (WORD_MOD - 1).testBit (i % 64) = true := by
          simp only [WORD_MOD]
          rw [show (2 : Nat) ^ 64 - 1 = 2 ^ 64 - 1 from rfl, Nat.testBit_two_pow_sub_one]
          simp [h64]
        rw [hm]
        by_cases hin : o ≤ i ∧ i < o + l
        · have e2 : o % 64 ≤ i % 64 := by omega
          have e3 : i % 64 - o % 64 < l := by omega
          have e4 : i % 64 - o % 64 = i - o := by omega
          have e5 : i - o < l := by omega
          simp [hin, e2, e3, e4, e5]
        · have : ¬(o % 64 ≤ i % 64 ∧ i % 64 - o % 64 < l) := by omega
          by_cases e2 : o % 64 ≤ i % 64
          · have e3 : ¬(i % 64 - o % 64 < l) := by omega
            simp [hin, e2, e3]
          · simp [hin, e2]
      · rw [getD_set_ne (fun hx => hsame (hx.symm)) _ _]
        have : ¬(o ≤ i ∧ i < o + l) := by omega
        simp [this]

/-! ### Bucket-level get and set -/

theorem Buckets.get_eq_getWord (b : Buckets) (hbs : b.bucket_size < 8) (k : Nat) :
    b.get k = getWordAux b.data (k * b.bucket_size) b.bucket_size := by
  unfold Buckets.get
  refine Nat.mod_eq_of_lt (lt_of_lt_of_le (getWordAux_lt ..) ?_)
  calc (2 : Nat) ^ b.bucket_size ≤ 2 ^ 8 := Nat.pow_le_pow_right (by omega) (by omega)
    _ = 256 := by norm_num

theorem Buckets.get_lt (b : Buckets) (hbs : b.bucket_size < 8) (k : Nat) :
    b.get k < 2 ^ b.bucket_size := by
  rw [Buckets.get_eq_getWord b hbs]
  exact getWordAux_lt ..

theorem Buckets.set_data_length (b : Buckets) (k v : Nat) :
    (b.set k v).data.length = b.data.length := setWordAux_length ..

theorem Buckets.bucket_bound {b : Buckets} (hwf : b.Wf) {k : Nat} (hk : k < b.count) :
    (k + 1) * b.bucket_size ≤ 64 * b.data.length := by
  obtain ⟨h1, -, -, -⟩ := hwf
  have h2 : (k + 1) * b.bucket_size ≤ b.count * b.bucket_size :=
    Nat.mul_le_mul_right _ hk
  have h3 : b.count * b.bucket_size ≤
      64 * ((b.count * b.bucket_size + 63) / 64) := by omega
  simp only [BITS_PER_WORD] at h1
  omega

theorem Buckets.set_wf {b : Buckets} (hwf : b.Wf) (k v : Nat) : (b.set k v).Wf := by
  obtain ⟨h1, h2, h3, h4⟩ := hwf
  exact ⟨by rw [Buckets.set_data_length]; exact h1, setWordAux_mem_lt _ _ _ _ h2, h3, h4⟩

/-- Reading back the bucket just written returns the written value, clamped to
`max` — in particular the written value itself whenever it is within range. -/
theorem Buckets.get_set_self (b : Buckets) (hbs : 0 < b.bucket_size)
    (hbs8 : b.bucket_size < 8) (hmax : b.max = (1 <<< b.bucket_size) - 1) (k v : Nat)
    (hb : (k + 1) * b.bucket_size ≤ 64 * b.data.length) :
    (b.set k v).get k = if v > b.max then b.max else v := by
  have hmax2 : b.max = 2 ^ b.bucket_size - 1 := by rw [hmax, one_shiftLeft_sub_one]
  have hp := Nat.two_pow_pos b.bucket_size
  have hwlt : (if v > b.max then b.max else v) < 2 ^ b.bucket_size := by
    split <;> omega
  have hb2 : k * b.bucket_size + b.bucket_size ≤ 64 * b.data.length := by
    have he : (k + 1) * b.bucket_size = k * b.bucket_size + b.bucket_size := by ring
    omega
  rw [show (b.set k v).get k =
      getWordAux (setWordAux b.data (k * b.bucket_size) b.bucket_size
        (if v > b.max then b.max else v)) (k * b.bucket_size) b.bucket_size from
    Buckets.get_eq_getWord (b.set k v) hbs8 k]
  apply Nat.eq_of_testBit_eq
  intro j
  rw [getWordAux_testBit, setWordAux_streamBit _ _ _ _ hbs hb2]
  by_cases hj : j < b.bucket_size
  · have hin : k * b.bucket_size ≤ k * b.bucket_size + j ∧
      k * b.bucket_size + j < k * b.bucket_size + b.bucket_size := by omega
    have e : k * b.bucket_size + j - k * b.bucket_size = j := by omega
    simp [hj, hin, e]
  · have : (if v > b.max then b.max else v).testBit j = false :=
      Nat.testBit_lt_two_pow
        (lt_of_lt_of_le hwlt (Nat.pow_le_pow_right (by omega) (by omega)))
    simp [hj, this]

/-- Writing one bucket leaves the value of every other bucket unchanged. -/
theorem Buckets.get_set_ne (b : Buckets) (hbs : 0 < b.bucket_size)
    (hbs8 : b.bucket_size < 8) (k v j : Nat) (hjk : j ≠ k)
    (hb : (k + 1) * b.bucket_size ≤ 64 * b.data.length) :
    (b.set k v).get j = b.get j := by
  have hb2 : k * b.bucket_size + b.bucket_size ≤ 64 * b.data.length := by
    have he : (k + 1) * b.bucket_size = k * b.bucket_size + b.bucket_size := by ring
    omega
  rw [show (b.set k v).get j =
      getWordAux (setWordAux b.data (k * b.bucket_size) b.bucket_size
        (if v > b.max then b.max else v)) (j * b.bucket_size) b.bucket_size from
    Buckets.get_eq_getWord (b.set k v) hbs8 j]
  rw [Buckets.get_eq_getWord b hbs8]
  apply Nat.eq_of_testBit_eq
  intro i
  rw [getWordAux_testBit, getWordAux_testBit]
  by_cases hi : i < b.bucket_size
  · rw [setWordAux_streamBit _ _ _ _ hbs hb2]
    have hout : ¬(k * b.bucket_size ≤ j * b.bucket_size + i ∧
        j * b.bucket_size + i < k * b.bucket_size + b.bucket_size) := by
      rcases Nat.lt_or_ge j k with hlt | hge
      · have hA : (j + 1) * b.bucket_size ≤ k * b.bucket_size :=
          Nat.mul_le_mul_right _ hlt
        have hB : (j + 1) * b.bucket_size = j * b.bucket_size + b.bucket_size := by ring
        omega
      · have hgt : k + 1 ≤ j := by omega
        have hA : (k + 1) * b.bucket_size ≤ j * b.bucket_size :=
          Nat.mul_le_mul_right _ hgt
        have hB : (k + 1) * b.bucket_size = k * b.bucket_size + b.bucket_size := by ring
        omega
    simp [hi, hout]
  · simp [hi]

/-! ### Increment -/

theorem toI8_of_lt {x : Nat} (hx : x < 128) : toI8 x = (x : Int) := by
  unfold toI8
  rw [Nat.mod_eq_of_lt (show x < 256 by omega)]
  simp [hx]

theorem wrap8_of_range {x : Int} (h1 : -128 ≤ x) (h2 : x < 128) : wrap8 x = x := by
  unfold wrap8
  omega

/-- Incrementing by 1 on a width of at most 6 bits behaves as the saturating
increment: the target bucket becomes `min (old + 1) max`, others keep their
values (on width 7 the `i8` addition can overflow instead — see the claims
about `increment`). -/
theorem Buckets.get_increment_one (b : Buckets) (hwf : b.Wf) (hbs : 0 < b.bucket_size)
    (hbs6 : b.bucket_size ≤ 6) (k j : Nat) (hk : k < b.count) :
    (b.increment k 1).get j = if j = k then min (b.get k + 1) b.max else b.get j := by
  obtain ⟨h1, h2, h3, h4⟩ := hwf
  have hb := Buckets.bucket_bound ⟨h1, h2, h3, h4⟩ hk
  have hmax2 : b.max = 2 ^ b.bucket_size - 1 := by rw [h3, one_shiftLeft_sub_one]
  have hvlt : b.get k < 2 ^ b.bucket_size := Buckets.get_lt b h4 k
  have hsmall : (2 : Nat) ^ b.bucket_size ≤ 64 :=
    le_trans (Nat.pow_le_pow_right (by omega) hbs6) (by norm_num)
  have hv128 : b.get k < 128 := by omega
  have hm128 : b.max < 128 := by omega
  have hvmax : b.get k ≤ b.max := by omega
  have hstep : b.increment k 1 =
      b.set k (if b.get k + 1 > b.max then b.max else b.get k + 1) := by
    unfold Buckets.increment
    rw [toI8_of_lt hv128, toI8_of_lt hm128,
      wrap8_of_range (by omega) (by omega)]
    have hnn : ¬((b.get k : Int) + 1 < 0) := by omega
    simp only [hnn, if_false]
    by_cases hc : (b.get k : Int) + 1 > (b.max : Int)
    · have hcn : b.get k + 1 > b.max := by exact_mod_cast hc
      simp only [hc, if_true, hcn]
    · have hcn : ¬(b.get k + 1 > b.max) := by
        intro hcon
        exact hc (by exact_mod_cast hcon)
      simp only [hc, if_false, hcn]
      congr 1
  rw [hstep]
  by_cases hj : j = k
  · subst hj
    have hX : (if b.get j + 1 > b.max then b.max else b.get j + 1) =
        min (b.get j + 1) b.max := by
      split <;> omega
    rw [Buckets.get_set_self b hbs h4 h3 _ _ hb, hX, if_neg (by omega)]
    simp
  · rw [Buckets.get_set_ne b hbs h4 _ _ _ hj hb]
    simp [hj]

/-- Decrementing by 1 is the saturating decrement for every width below 8:
the target bucket becomes `old - 1` (truncated at 0), others keep their
values. -/
theorem Buckets.get_increment_neg_one (b : Buckets) (hwf : b.Wf) (hbs : 0 < b.bucket_size)
    (k j : Nat) (hk : k < b.count) :
    (b.increment k (-1)).get j = if j = k then b.get k - 1 else b.get j := by
  obtain ⟨h1, h2, h3, h4⟩ := hwf
  have hb := Buckets.bucket_bound ⟨h1, h2, h3, h4⟩ hk
  have hmax2 : b.max = 2 ^ b.bucket_size - 1 := by rw [h3, one_shiftLeft_sub_one]
  have hvlt : b.get k < 2 ^ b.bucket_size := Buckets.get_lt b h4 k
  have hsmall : (2 : Nat) ^ b.bucket_size ≤ 128 :=
    le_trans (Nat.pow_le_pow_right (by omega) (show b.bucket_size ≤ 7 by omega))
      (by norm_num)
  have hv128 : b.get k < 128 := by omega
  have hm128 : b.max < 128 := by omega
  have hvmax : b.get k ≤ b.max := by omega
  have hstep : b.increment k (-1) = b.set k (b.get k - 1) := by
    unfold Buckets.increment
    rw [toI8_of_lt hv128, toI8_of_lt hm128,
      wrap8_of_range (by omega) (by omega)]
    by_cases hz : b.get k = 0
    · simp [hz]
    · have hnn : ¬((b.get k : Int) + (-1) < 0) := by omega
      have hle : ¬((b.get k : Int) + (-1) > (b.max : Int)) := by omega
      simp only [hnn, if_false, hle]
      congr 1
      omega
  rw [hstep]
  by_cases hj : j = k
  · subst hj
    rw [Buckets.get_set_self b hbs h4 h3 _ _ hb, if_neg (by omega)]
    simp
  · rw [Buckets.get_set_ne b hbs h4 _ _ _ hj hb]
    simp [hj]

theorem Buckets.increment_wf {b : Buckets} (hwf : b.Wf) (k : Nat) (delta : Int) :
    (b.increment k delta).Wf := Buckets.set_wf hwf ..

theorem Buckets.increment_count (b : Buckets) (k : Nat) (delta : Int) :
    (b.increment k delta).count = b.count := rfl

/-! ### The probe sequences -/

theorem mapM_option_of_some {α β : Type} (l : List α) (f : α → β) :
    (l.mapM fun a => some (f a)) = some (l.map f) := by
  induction l with
  | nil => rfl
  | cons a t ih => rw [List.mapM_cons, ih]; rfl

/-- With a nonzero modulus, draining the default hash iterator never panics
and produces the closed-form probe list. -/
theorem hashProbes_eq_probeList (digest seed k n : Nat) (hn : 0 < n) :
    hashProbes digest seed k n = some (probeList digest seed k n) := by
  unfold hashProbes probeList wrappingRem
  simp only [if_neg (Nat.pos_iff_ne_zero.mp hn)]
  rw [mapM_option_of_some]
  congr 1
  exact List.map_congr_left fun i _ => by rw [← Nat.add_mod]

theorem probeList_length (digest seed k n : Nat) : (probeList digest seed k n).length = k := by
  simp [probeList]

theorem probeList_lt (digest seed k n : Nat) (hn : 0 < n) :
    ∀ p ∈ probeList digest seed k n, p < n := by
  intro p hp
  simp only [probeList, List.mem_map] at hp
  obtain ⟨i, -, rfl⟩ := hp
  exact Nat.mod_lt _ hn

/-- Closed form of the stable filter's (seedless) probe list. -/
def stableProbeList (digest k n : Nat) : List Nat :=
  (List.range k).map fun i => (digest % 2 ^ 32 + digest / 2 ^ 32 * i) % WORD_MOD % n

theorem stableProbes_eq_probeList (digest k n : Nat) (hn : 0 < n) :
    stableProbes digest k n = some (stableProbeList digest k n) := by
  unfold stableProbes stableProbeList wrappingRem
  simp only [if_neg (Nat.pos_iff_ne_zero.mp hn)]
  rw [mapM_option_of_some]
  congr 1
  have hlo : digest % 2 ^ 32 < WORD_MOD :=
    lt_of_lt_of_le (Nat.mod_lt _ (by norm_num)) (by norm_num [WORD_MOD])
  exact List.map_congr_left fun i _ => by
    conv_rhs => rw [Nat.add_mod]
    rw [Nat.mod_eq_of_lt hlo]

theorem stableProbeList_lt (digest k n : Nat) (hn : 0 < n) :
    ∀ p ∈ stableProbeList digest k n, p < n := by
  intro p hp
  simp only [stableProbeList, List.mem_map] at hp
  obtain ⟨i, -, rfl⟩ := hp
  exact Nat.mod_lt _ hn

/-! ### Serialization -/

theorem wordToBytes_length (w : Nat) : (wordToBytes w).length = 8 := by
  simp [wordToBytes]

theorem wordToBytes_lt (w : Nat) : ∀ x ∈ wordToBytes w, x < 256 := by
  intro x hx
  simp only [wordToBytes, List.mem_map] at hx
  obtain ⟨j, -, rfl⟩ := hx
  exact Nat.mod_lt _ (by norm_num)

/-- Bits of the little-endian value of a byte list. -/
theorem decodeLE_testBit (bytes : List Nat) (hb : ∀ x ∈ bytes, x < 256) (i : Nat) :
    (decodeLE bytes).testBit i =
      (decide (i < 8 * bytes.length) && (bytes.getD (i / 8) 0).testBit (i % 8)) := by
  induction bytes generalizing i with
  | nil => simp [decodeLE]
  | cons b rest ih =>
    have hb0 : b < 256 := hb b (by simp)
    have hkey : decodeLE (b :: rest) = 2 ^ 8 * decodeLE rest + b := by
      show b + 256 * decodeLE rest = _
      norm_num
      ring
    rw [hkey, Nat.testBit_mul_pow_two_add _ (show b < 2 ^ 8 by omega)]
    by_cases hi : i < 8
    · have e1 : i / 8 = 0 := by omega
      have e2 : i % 8 = i := by omega
      rw [if_pos hi, e1, e2, List.getD_cons_zero]
      have e3 : i < 8 * (rest.length + 1) := by omega
      simp [List.length_cons, e3]
    · rw [if_neg hi, ih (fun x hx => hb x (List.mem_cons_of_mem _ hx)) (i - 8)]
      have e1 : i / 8 = (i - 8) / 8 + 1 := by omega
      have e2 : (i - 8) % 8 = i % 8 := by omega
      have e3 : ((i - 8 < 8 * rest.length) ↔ (i < 8 * (b :: rest).length)) := by
        simp only [List.length_cons]
        omega
      rw [e1, e2, List.getD_cons_succ, decide_eq_decide.mpr e3]

theorem decodeLE_lt (bytes : List Nat) (hb : ∀ x ∈ bytes, x < 256) :
    decodeLE bytes < 2 ^ (8 * bytes.length) := by
  apply Nat.lt_pow_two_of_testBit
  intro i hi
  rw [decodeLE_testBit bytes hb]
  simp [Nat.not_lt.mpr hi]

theorem byte_testBit (w j i : Nat) :
    (w / 2 ^ (8 * j) % 256).testBit i = (decide (i < 8) && w.testBit (8 * j + i)) := by
  rw [show (256 : Nat) = 2 ^ 8 from rfl, Nat.testBit_mod_two_pow,
    ← Nat.shiftRight_eq_div_pow, Nat.testBit_shiftRight]

/-- Decoding the little-endian bytes of a 64-bit word recovers the word. -/
theorem decodeLE_wordToBytes (w : Nat) (hw : w < WORD_MOD) :
    decodeLE (wordToBytes w) = w := by
  apply Nat.eq_of_testBit_eq
  intro i
  rw [decodeLE_testBit _ (wordToBytes_lt w), wordToBytes_length]
  by_cases hi : i < 64
  · have hd : i / 8 < 8 := by omega
    have hgetD : (wordToBytes w).getD (i / 8) 0 = w / 2 ^ (8 * (i / 8)) % 256 := by
      simp [wordToBytes, List.getD_eq_getElem?_getD, List.getElem?_map,
        List.getElem?_range hd]
    rw [hgetD, byte_testBit]
    have e1 : 8 * (i / 8) + i % 8 = i := by omega
    have e2 : i % 8 < 8 := by omega
    simp [hi, e1, e2]
  · have h1 : ¬(i < 8 * 8) := by omega
    have h64 : (2 : Nat) ^ 64 ≤ 2 ^ i := Nat.pow_le_pow_right (by omega) (by omega)
    have h2 : w.testBit i = false := by
      apply Nat.testBit_lt_two_pow
      have hWM : WORD_MOD = 2 ^ 64 := rfl
      omega
    simp [h1, h2]

/-- Splitting a concatenation of exact 8-byte blocks recovers the blocks. -/
theorem chunksOf8_flatten (ws : List (List Nat)) (h : ∀ c ∈ ws, c.length = 8) :
    chunksOf8 ws.flatten = ws := by
  induction ws with
  | nil => rw [chunksOf8]; simp
  | cons c cs ih =>
    have hc : c.length = 8 := h c (by simp)
    have hne : (c :: cs).flatten ≠ [] := by
      simp only [List.flatten_cons]
      intro hcon
      have := congrArg List.length hcon
      simp [hc] at this
    rw [chunksOf8, dif_neg hne]
    simp only [List.flatten_cons]
    rw [List.take_left' hc, List.drop_left' hc, ih (fun x hx => h x (by simp [hx]))]

theorem raw_data_length (b : Buckets) : b.raw_data.length = b.data.length * 8 := by
  unfold Buckets.raw_data
  induction b.data with
  | nil => rfl
  | cons w ws ih =>
    simp only [List.map_cons, List.flatten_cons, List.length_append, List.length_cons, ih,
      wordToBytes_length]
    ring

theorem chunksOf8_raw_data (b : Buckets) :
    chunksOf8 b.raw_data = b.data.map wordToBytes := by
  unfold Buckets.raw_data
  apply chunksOf8_flatten
  intro c hc
  simp only [List.mem_map] at hc
  obtain ⟨w, -, rfl⟩ := hc
  exact wordToBytes_length w

/-- Deserializing a serialized well-formed bucket array reconstructs it
exactly. -/
theorem with_raw_data_raw_data (b : Buckets) (hwf : b.Wf) :
    Buckets.with_raw_data b.count b.bucket_size b.raw_data = some b := by
  obtain ⟨h1, h2, h3, h4⟩ := hwf
  have hlen : b.raw_data.length = b.data.length * 8 := raw_data_length b
  unfold Buckets.with_raw_data
  rw [if_pos ⟨h4, by rw [hlen, h1]⟩]
  congr 1
  have hdata : (chunksOf8 b.raw_data).map decodeLE = b.data := by
    rw [chunksOf8_raw_data, List.map_map]
    have : ∀ w ∈ b.data, (decodeLE ∘ wordToBytes) w = id w := fun w hw =>
      decodeLE_wordToBytes w (h2 w hw)
    rw [List.map_congr_left this, List.map_id]
  cases b with
  | mk data count bucket_size mx =>
    simp only at hdata h3 ⊢
    rw [hdata, h3]

/-! ### The OR-merge -/

theorem lor_shiftLeft_distrib (x y k : Nat) : (x ||| y) <<< k = x <<< k ||| y <<< k := by
  apply Nat.eq_of_testBit_eq
  intro i
  simp only [Nat.testBit_shiftLeft, Nat.testBit_lor]
  cases hk : decide (i ≥ k) <;> simp

theorem lor_assoc_nat (x y z : Nat) : x ||| y ||| z = x ||| (y ||| z) := by
  apply Nat.eq_of_testBit_eq
  intro i
  simp only [Nat.testBit_lor, Bool.or_assoc]

/-- The byte-fold of `update` ORs the little-endian value of the chunk,
shifted to the fold's starting byte offset, into the accumulator. -/
theorem updateWordAux_eq (bytes : List Nat) (hb : ∀ x ∈ bytes, x < 256) (acc off : Nat) :
    updateWordAux acc off bytes = acc ||| decodeLE bytes <<< (8 * off) := by
  induction bytes generalizing acc off with
  | nil => simp [updateWordAux, decodeLE]
  | cons b rest ih =>
    have hb0 : b < 256 := hb b (by simp)
    rw [show updateWordAux acc off (b :: rest) =
        updateWordAux (acc ||| b <<< (off * BYTES_PER_WORD)) (off + 1) rest from rfl,
      ih (fun x hx => hb x (by simp [hx]))]
    have hsplit : decodeLE (b :: rest) <<< (8 * off) =
        b <<< (8 * off) ||| decodeLE rest <<< (8 * (off + 1)) := by
      have hd : decodeLE (b :: rest) = 2 ^ 8 * decodeLE rest + b := by
        show b + 256 * decodeLE rest = _
        norm_num
        ring
      rw [hd, Nat.mul_add_lt_is_or (show b < 2 ^ 8 by omega), lor_shiftLeft_distrib]
      rw [Nat.lor_comm ((2 ^ 8 * decodeLE rest) <<< (8 * off))]
      congr 1
      rw [Nat.shiftLeft_eq, Nat.shiftLeft_eq, Nat.mul_comm (2 ^ 8), Nat.mul_assoc,
        ← Nat.pow_add]
      congr 2
      omega
    rw [hsplit, ← lor_assoc_nat]
    congr 2
    simp only [BYTES_PER_WORD]
    ring_nf

/-- Merging one word with the little-endian bytes of another word is their
bitwise OR. -/
theorem updateWordAux_wordToBytes (w1 w2 : Nat) (hw2 : w2 < WORD_MOD) :
    updateWordAux w1 0 (wordToBytes w2) = w1 ||| w2 := by
  rw [updateWordAux_eq _ (wordToBytes_lt w2), Nat.mul_zero, Nat.shiftLeft_zero,
    decodeLE_wordToBytes w2 hw2]

theorem updateWords_length (ws : List Nat) (cs : List (List Nat)) :
    (updateWords ws cs).length = ws.length := by
  induction ws generalizing cs with
  | nil => cases cs <;> rfl
  | cons w ws ih => cases cs <;> simp [updateWords, ih]

/-- Word `i` after `update`: OR-merged with chunk `i` while chunks last,
untouched afterwards. -/
theorem updateWords_getD (ws : List Nat) (cs : List (List Nat)) (i : Nat)
    (hi : i < ws.length) :
    (updateWords ws cs).getD i 0 =
      if i < cs.length then updateWordAux (ws.getD i 0) 0 (cs.getD i []) else ws.getD i 0 := by
  induction ws generalizing cs i with
  | nil => simp at hi
  | cons w ws ih =>
    cases cs with
    | nil => simp [updateWords]
    | cons c cs =>
      cases i with
      | zero => simp [updateWords]
      | succ i =>
        have hi2 : i < ws.length := by
          simp only [List.length_cons] at hi
          omega
        simp only [updateWords, List.getD_cons_succ, List.length_cons, ih _ _ hi2]
        have : (i + 1 < cs.length + 1) ↔ (i < cs.length) := by omega
        rw [if_congr this rfl rfl]

/-- Update against the serialization of an equal-length well-formed word list
is the elementwise bitwise OR. -/
theorem updateWords_encode (ws1 ws2 : List Nat) (hlen : ws1.length = ws2.length)
    (hw2 : ∀ x ∈ ws2, x < WORD_MOD) :
    updateWords ws1 (chunksOf8 (ws2.map wordToBytes).flatten) =
      List.zipWith (· ||| ·) ws1 ws2 := by
  have hch : chunksOf8 (ws2.map wordToBytes).flatten = ws2.map wordToBytes := by
    apply chunksOf8_flatten
    intro c hc
    simp only [List.mem_map] at hc
    obtain ⟨w, -, rfl⟩ := hc
    exact wordToBytes_length w
  rw [hch]
  clear hch
  induction ws1 generalizing ws2 with
  | nil => cases ws2 <;> rfl
  | cons w1 t1 ih =>
    cases ws2 with
    | nil => simp at hlen
    | cons w2 t2 =>
      simp only [List.map_cons, updateWords, List.zipWith_cons_cons]
      congr 1
      · exact updateWordAux_wordToBytes w1 w2 (hw2 w2 (by simp))
      · exact ih t2 (by simpa using hlen) (fun x hx => hw2 x (by simp [hx]))

/-! ### Folds of set and increment over probe lists -/

theorem foldl_set_count (ps : List Nat) (bk : Buckets) (v : Nat) :
    (ps.foldl (fun b i => b.set i v) bk).count = bk.count := by
  induction ps generalizing bk with
  | nil => rfl
  | cons p t ih => exact ih (bk.set p v)

theorem foldl_set_bucket_size (ps : List Nat) (bk : Buckets) (v : Nat) :
    (ps.foldl (fun b i => b.set i v) bk).bucket_size = bk.bucket_size := by
  induction ps generalizing bk with
  | nil => rfl
  | cons p t ih => exact ih (bk.set p v)

theorem foldl_set_max (ps : List Nat) (bk : Buckets) (v : Nat) :
    (ps.foldl (fun b i => b.set i v) bk).max = bk.max := by
  induction ps generalizing bk with
  | nil => rfl
  | cons p t ih => exact ih (bk.set p v)

theorem foldl_set_wf (ps : List Nat) (bk : Buckets) (v : Nat) (hwf : bk.Wf) :
    (ps.foldl (fun b i => b.set i v) bk).Wf := by
  induction ps generalizing bk with
  | nil => exact hwf
  | cons p t ih => exact ih (bk.set p v) (Buckets.set_wf hwf p v)

/-- After setting value `v` at every bucket in `ps`, a bucket reads the
clamped `v` if it occurs in `ps` and its old value otherwise. -/
theorem foldl_set_get (bk : Buckets) (hwf : bk.Wf) (hbs : 0 < bk.bucket_size)
    (ps : List Nat) (hps : ∀ p ∈ ps, p < bk.count) (v j : Nat) :
    (ps.foldl (fun b i => b.set i v) bk).get j =
      if j ∈ ps then (if v > bk.max then bk.max else v) else bk.get j := by
  induction ps generalizing bk with
  | nil => simp
  | cons p t ih =>
    obtain ⟨h1, h2, h3, h4⟩ := hwf
    have hp : p < bk.count := hps p (by simp)
    have hb := Buckets.bucket_bound ⟨h1, h2, h3, h4⟩ hp
    rw [List.foldl_cons,
      ih (bk.set p v) (Buckets.set_wf ⟨h1, h2, h3, h4⟩ p v) hbs
        (fun q hq => hps q (List.mem_cons_of_mem _ hq))]
    by_cases hjt : j ∈ t
    · have hms : (bk.set p v).max = bk.max := rfl
      simp [hjt, hms]
    · by_cases hjp : j = p
      · subst hjp
        rw [Buckets.get_set_self bk hbs h4 h3 _ _ hb]
        simp [hjt]
      · rw [Buckets.get_set_ne bk hbs h4 _ _ _ hjp hb]
        have : ¬(j ∈ p :: t) := by simp [hjp, hjt]
        simp [hjt, this]

theorem foldl_inc_count (ps : List Nat) (bk : Buckets) (d : Int) :
    (ps.foldl (fun b i => b.increment i d) bk).count = bk.count := by
  induction ps generalizing bk with
  | nil => rfl
  | cons p t ih => exact ih (bk.increment p d)

theorem foldl_inc_bucket_size (ps : List Nat) (bk : Buckets) (d : Int) :
    (ps.foldl (fun b i => b.increment i d) bk).bucket_size = bk.bucket_size := by
  induction ps generalizing bk with
  | nil => rfl
  | cons p t ih => exact ih (bk.increment p d)

theorem foldl_inc_max (ps : List Nat) (bk : Buckets) (d : Int) :
    (ps.foldl (fun b i => b.increment i d) bk).max = bk.max := by
  induction ps generalizing bk with
  | nil => rfl
  | cons p t ih => exact ih (bk.increment p d)

theorem foldl_inc_wf (ps : List Nat) (bk : Buckets) (d : Int) (hwf : bk.Wf) :
    (ps.foldl (fun b i => b.increment i d) bk).Wf := by
  induction ps generalizing bk with
  | nil => exact hwf
  | cons p t ih => exact ih (bk.increment p d) (Buckets.increment_wf hwf p d)

/-- A fold of unit increments (counting-filter insert) never decreases any
bucket, for widths up to 6 bits. -/
theorem foldl_inc_ge (ps : List Nat) (bk : Buckets) (hwf : bk.Wf)
    (hbs : 0 < bk.bucket_size) (hbs6 : bk.bucket_size ≤ 6)
    (hps : ∀ p ∈ ps, p < bk.count) (j : Nat) :
    bk.get j ≤ (ps.foldl (fun b i => b.increment i 1) bk).get j := by
  induction ps generalizing bk with
  | nil => exact le_refl _
  | cons p t ih =>
    have hp : p < bk.count := hps p (by simp)
    have hstep : bk.get j ≤ (bk.increment p 1).get j := by
      rw [Buckets.get_increment_one bk hwf hbs hbs6 p j hp]
      by_cases hj : j = p
      · subst hj
        have hvlt : bk.get j < 2 ^ bk.bucket_size := Buckets.get_lt bk hwf.2.2.2 j
        have hmax2 : bk.max = 2 ^ bk.bucket_size - 1 := by
          rw [hwf.2.2.1, one_shiftLeft_sub_one]
        rw [if_pos rfl]
        omega
      · simp [hj]
    exact le_trans hstep
      (ih (bk.increment p 1) (Buckets.increment_wf hwf p 1) hbs hbs6
        (fun q hq => hps q (List.mem_cons_of_mem _ hq)))

/-- After a fold of unit increments over `ps`, every bucket in `ps` is
positive (widths up to 6 bits). -/
theorem foldl_inc_mem (ps : List Nat) (bk : Buckets) (hwf : bk.Wf)
    (hbs : 0 < bk.bucket_size) (hbs6 : bk.bucket_size ≤ 6)
    (hps : ∀ p ∈ ps, p < bk.count) (j : Nat) (hj : j ∈ ps) :
    1 ≤ (ps.foldl (fun b i => b.increment i 1) bk).get j := by
  induction ps generalizing bk with
  | nil => simp at hj
  | cons p t ih =>
    have hp : p < bk.count := hps p (by simp)
    rcases List.mem_cons.mp hj with hjp | hjt
    · subst hjp
      rw [List.foldl_cons]
      have hone : 1 ≤ (bk.increment j 1).get j := by
        rw [Buckets.get_increment_one bk hwf hbs hbs6 j j hp, if_pos rfl]
        have hmax2 : bk.max = 2 ^ bk.bucket_size - 1 := by
          rw [hwf.2.2.1, one_shiftLeft_sub_one]
        have hpow : 2 ≤ 2 ^ bk.bucket_size :=
          le_trans (by norm_num) (Nat.pow_le_pow_right (by omega) hbs)
        omega
      exact le_trans hone
        (foldl_inc_ge t (bk.increment j 1) (Buckets.increment_wf hwf j 1) hbs hbs6
          (fun q hq => hps q (List.mem_cons_of_mem _ hq)) j)
    · rw [List.foldl_cons]
      exact ih (bk.increment p 1) (Buckets.increment_wf hwf p 1) hbs hbs6
        (fun q hq => hps q (List.mem_cons_of_mem _ hq)) hjt

/-! ### Classic-filter reductions to pure folds -/

/-- The pure effect of a classic insert once the bucket count is nonzero. -/
def ClassicFilter.insertP (f : ClassicFilter) (digest : Nat) : ClassicFilter :=
  { f with
    buckets := (probeList digest f.hash_seed f.k f.buckets.count).foldl
      (fun bk i => bk.set i 1) f.buckets }

/-- The pure effect of a sequence of classic inserts. -/
def ClassicFilter.insertAllP (f : ClassicFilter) (items : List Nat) : ClassicFilter :=
  items.foldl ClassicFilter.insertP f

theorem ClassicFilter.insert_eq (f : ClassicFilter) (hn : 0 < f.buckets.count) (x : Nat) :
    f.insert x = some (f.insertP x) := by
  unfold ClassicFilter.insert ClassicFilter.insertP
  rw [hashProbes_eq_probeList _ _ _ _ hn]
  rfl

theorem ClassicFilter.contains_eq (f : ClassicFilter) (hn : 0 < f.buckets.count) (x : Nat) :
    f.contains x =
      some ((probeList x f.hash_seed f.k f.buckets.count).all fun i => f.buckets.get i == 1) := by
  unfold ClassicFilter.contains
  rw [hashProbes_eq_probeList _ _ _ _ hn]
  rfl

theorem ClassicFilter.insertP_count (f : ClassicFilter) (x : Nat) :
    (f.insertP x).buckets.count = f.buckets.count := foldl_set_count ..

theorem ClassicFilter.insertP_fields (f : ClassicFilter) (x : Nat) :
    (f.insertP x).buckets.bucket_size = f.buckets.bucket_size ∧
      (f.insertP x).buckets.max = f.buckets.max ∧
      (f.insertP x).hash_seed = f.hash_seed ∧ (f.insertP x).k = f.k :=
  ⟨foldl_set_bucket_size .., foldl_set_max .., rfl, rfl⟩

theorem ClassicFilter.insertP_wf (f : ClassicFilter) (hwf : f.buckets.Wf) (x : Nat) :
    (f.insertP x).buckets.Wf := foldl_set_wf _ _ _ hwf

theorem ClassicFilter.insertAll_eq (f : ClassicFilter) (hn : 0 < f.buckets.count)
    (xs : List Nat) : f.insertAll xs = some (f.insertAllP xs) := by
  induction xs generalizing f with
  | nil => rfl
  | cons x t ih =>
    show (x :: t).foldlM ClassicFilter.insert f = _
    rw [List.foldlM_cons, ClassicFilter.insert_eq f hn x]
    show ((f.insertP x).insertAll t) = _
    rw [ih (f.insertP x) (by rw [ClassicFilter.insertP_count]; exact hn)]
    rfl

/-- A classic insert sets exactly the probe buckets to 1. -/
theorem ClassicFilter.insertP_get (f : ClassicFilter) (hwf : f.buckets.Wf)
    (hbs : f.buckets.bucket_size = 1) (hn : 0 < f.buckets.count) (x j : Nat) :
    (f.insertP x).buckets.get j =
      if j ∈ probeList x f.hash_seed f.k f.buckets.count then 1 else f.buckets.get j := by
  unfold ClassicFilter.insertP
  rw [foldl_set_get f.buckets hwf (by omega) _
    (probeList_lt x f.hash_seed f.k f.buckets.count hn) 1 j]
  have hmax : f.buckets.max = 1 := by
    rw [hwf.2.2.1, hbs]
    rfl
  rw [hmax]
  simp

/-- Once a bucket holds 1, any further sequence of classic inserts keeps it
at 1. -/
theorem ClassicFilter.insertAllP_get_one (f : ClassicFilter) (hwf : f.buckets.Wf)
    (hbs : f.buckets.bucket_size = 1) (hn : 0 < f.buckets.count) (j : Nat)
    (hj : f.buckets.get j = 1) (ys : List Nat) :
    (f.insertAllP ys).buckets.get j = 1 := by
  induction ys generalizing f with
  | nil => exact hj
  | cons y t ih =>
    show ((f.insertP y).insertAllP t).buckets.get j = 1
    refine ih (f.insertP y) (ClassicFilter.insertP_wf f hwf y)
      (by rw [(ClassicFilter.insertP_fields f y).1]; exact hbs)
      (by rw [ClassicFilter.insertP_count]; exact hn) ?_
    rw [ClassicFilter.insertP_get f hwf hbs hn y j]
    split <;> simp [hj]

/-! ### Counting-filter reductions -/

/-- The pure effect of a counting insert once the bucket count is nonzero. -/
def CountingFilter.insertP (f : CountingFilter) (digest : Nat) : CountingFilter :=
  { f with
    buckets := (probeList digest f.hash_seed f.k f.buckets.count).foldl
      (fun bk i => bk.increment i 1) f.buckets }

/-- The pure effect of a sequence of counting inserts. -/
def CountingFilter.insertAllP (f : CountingFilter) (items : List Nat) : CountingFilter :=
  items.foldl CountingFilter.insertP f

theorem CountingFilter.cnt_insert_eq (f : CountingFilter) (hn : 0 < f.buckets.count) (x : Nat) :
    f.insert x = some (f.insertP x) := by
  unfold CountingFilter.insert CountingFilter.insertP
  rw [hashProbes_eq_probeList _ _ _ _ hn]
  rfl

theorem CountingFilter.cnt_contains_eq (f : CountingFilter) (hn : 0 < f.buckets.count) (x : Nat) :
    f.contains x =
      some ((probeList x f.hash_seed f.k f.buckets.count).all fun i =>
        decide (0 < f.buckets.get i)) := by
  unfold CountingFilter.contains
  rw [hashProbes_eq_probeList _ _ _ _ hn]
  rfl

theorem CountingFilter.cnt_insertP_count (f : CountingFilter) (x : Nat) :
    (f.insertP x).buckets.count = f.buckets.count := foldl_inc_count ..

theorem CountingFilter.cnt_insertP_fields (f : CountingFilter) (x : Nat) :
    (f.insertP x).buckets.bucket_size = f.buckets.bucket_size ∧
      (f.insertP x).buckets.max = f.buckets.max ∧
      (f.insertP x).hash_seed = f.hash_seed ∧ (f.insertP x).k = f.k :=
  ⟨foldl_inc_bucket_size .., foldl_inc_max .., rfl, rfl⟩

theorem CountingFilter.cnt_insertP_wf (f : CountingFilter) (hwf : f.buckets.Wf) (x : Nat) :
    (f.insertP x).buckets.Wf := foldl_inc_wf _ _ _ hwf

theorem CountingFilter.cnt_insertAll_eq (f : CountingFilter) (hn : 0 < f.buckets.count)
    (xs : List Nat) : f.insertAll xs = some (f.insertAllP xs) := by
  induction xs generalizing f with
  | nil => rfl
  | cons x t ih =>
    show (x :: t).foldlM CountingFilter.insert f = _
    rw [List.foldlM_cons, CountingFilter.cnt_insert_eq f hn x]
    show ((f.insertP x).insertAll t) = _
    rw [ih (f.insertP x) (by rw [CountingFilter.cnt_insertP_count]; exact hn)]
    rfl

theorem CountingFilter.insertP_ge (f : CountingFilter) (hwf : f.buckets.Wf)
    (hbs : 0 < f.buckets.bucket_size) (hbs6 : f.buckets.bucket_size ≤ 6)
    (hn : 0 < f.buckets.count) (x j : Nat) :
    f.buckets.get j ≤ (f.insertP x).buckets.get j :=
  foldl_inc_ge _ _ hwf hbs hbs6 (probeList_lt x f.hash_seed f.k f.buckets.count hn) j

theorem CountingFilter.insertP_mem (f : CountingFilter) (hwf : f.buckets.Wf)
    (hbs : 0 < f.buckets.bucket_size) (hbs6 : f.buckets.bucket_size ≤ 6)
    (hn : 0 < f.buckets.count) (x j : Nat)
    (hj : j ∈ probeList x f.hash_seed f.k f.buckets.count) :
    1 ≤ (f.insertP x).buckets.get j :=
  foldl_inc_mem _ _ hwf hbs hbs6 (probeList_lt x f.hash_seed f.k f.buckets.count hn) j hj

/-- Once positive, a bucket of a counting filter of width at most 6 stays
positive under any further sequence of inserts. -/
theorem CountingFilter.insertAllP_pos (f : CountingFilter) (hwf : f.buckets.Wf)
    (hbs : 0 < f.buckets.bucket_size) (hbs6 : f.buckets.bucket_size ≤ 6)
    (hn : 0 < f.buckets.count) (j : Nat) (hj : 1 ≤ f.buckets.get j) (ys : List Nat) :
    1 ≤ (f.insertAllP ys).buckets.get j := by
  induction ys generalizing f with
  | nil => exact hj
  | cons y t ih =>
    show 1 ≤ ((f.insertP y).insertAllP t).buckets.get j
    refine ih (f.insertP y) (CountingFilter.cnt_insertP_wf f hwf y)
      (by rw [(CountingFilter.cnt_insertP_fields f y).1]; exact hbs)
      (by rw [(CountingFilter.cnt_insertP_fields f y).1]; exact hbs6)
      (by rw [CountingFilter.cnt_insertP_count]; exact hn) ?_
    exact le_trans hj (CountingFilter.insertP_ge f hwf hbs hbs6 hn y j)

/-! ### Stable-filter reductions -/

theorem foldlM_inc_eq (l : List Nat) (bk : Buckets) (r : Nat) (hn : 0 < bk.count) :
    (l.foldlM
        (fun b i => (wrappingRem (r + i) b.count).map fun bucket => b.increment bucket (-1))
        bk) =
      some (l.foldl (fun b i => b.increment ((r + i) % b.count) (-1)) bk) := by
  induction l generalizing bk with
  | nil => rfl
  | cons a t ih =>
    rw [List.foldlM_cons]
    simp only [wrappingRem, if_neg (Nat.pos_iff_ne_zero.mp hn), Option.map_some]
    exact ih (bk.increment ((r + a) % bk.count) (-1)) hn

/-- The pure effect of the stable filter decay step. -/
def StableFilter.decrementP (f : StableFilter) (r : Nat) : StableFilter :=
  { f with
    buckets := (List.range f.p).foldl
      (fun bk i => bk.increment ((r + i) % bk.count) (-1)) f.buckets }

theorem StableFilter.decrement_eq (f : StableFilter) (hn : 0 < f.buckets.count) (r : Nat) :
    f.decrement r = some (f.decrementP r) := by
  unfold StableFilter.decrement StableFilter.decrementP
  rw [foldlM_inc_eq _ _ _ hn]
  rfl

theorem foldl_incmod_count (l : List Nat) (bk : Buckets) (r : Nat) :
    (l.foldl (fun b i => b.increment ((r + i) % b.count) (-1)) bk).count = bk.count := by
  induction l generalizing bk with
  | nil => rfl
  | cons a t ih => exact ih (bk.increment ((r + a) % bk.count) (-1))

theorem foldl_incmod_bucket_size (l : List Nat) (bk : Buckets) (r : Nat) :
    (l.foldl (fun b i => b.increment ((r + i) % b.count) (-1)) bk).bucket_size =
      bk.bucket_size := by
  induction l generalizing bk with
  | nil => rfl
  | cons a t ih => exact ih (bk.increment ((r + a) % bk.count) (-1))

theorem foldl_incmod_max (l : List Nat) (bk : Buckets) (r : Nat) :
    (l.foldl (fun b i => b.increment ((r + i) % b.count) (-1)) bk).max = bk.max := by
  induction l generalizing bk with
  | nil => rfl
  | cons a t ih => exact ih (bk.increment ((r + a) % bk.count) (-1))

theorem foldl_incmod_wf (l : List Nat) (bk : Buckets) (r : Nat) (hwf : bk.Wf) :
    (l.foldl (fun b i => b.increment ((r + i) % b.count) (-1)) bk).Wf := by
  induction l generalizing bk with
  | nil => exact hwf
  | cons a t ih =>
    exact ih (bk.increment ((r + a) % bk.count) (-1)) (Buckets.increment_wf hwf _ _)

/-- The pure effect of a stable insert once the bucket count is nonzero:
decay, then hard-set the probe buckets to `max_value`. -/
def StableFilter.insertP (f : StableFilter) (r digest : Nat) : StableFilter :=
  { f.decrementP r with
    buckets := (stableProbeList digest (f.decrementP r).k
        (f.decrementP r).buckets.count).foldl
      (fun bk i => bk.set i (f.decrementP r).buckets.max) (f.decrementP r).buckets }

theorem StableFilter.stb_insert_eq (f : StableFilter) (hn : 0 < f.buckets.count)
    (r digest : Nat) : f.insert r digest = some (f.insertP r digest) := by
  unfold StableFilter.insert StableFilter.insertP
  rw [StableFilter.decrement_eq f hn r]
  have hcnt : (f.decrementP r).buckets.count = f.buckets.count := foldl_incmod_count ..
  show ((stableProbes digest (f.decrementP r).k (f.decrementP r).buckets.count).map _) = _
  rw [stableProbes_eq_probeList _ _ _ (by rw [hcnt]; exact hn)]
  rfl

theorem StableFilter.stb_contains_eq (f : StableFilter) (hn : 0 < f.buckets.count) (x : Nat) :
    f.contains x =
      some ((stableProbeList x f.k f.buckets.count).all fun i =>
        decide (0 < f.buckets.get i)) := by
  unfold StableFilter.contains
  rw [stableProbes_eq_probeList _ _ _ hn]
  rfl

/-! ### The OR structure of classic filters -/

/-- OR bit `p` of the bit stream into the word list. -/
def orBitAt (data : List Nat) (p : Nat) : List Nat :=
  data.set (p / 64) (data.getD (p / 64) 0 ||| 1 <<< (p % 64))

/-- Elementwise bitwise OR of two word lists. -/
def wordOr (a b : List Nat) : List Nat := List.zipWith (fun x y => x ||| y) a b

theorem getD_lt_of_bounded (data : List Nat) (hd : ∀ w ∈ data, w < WORD_MOD) (i : Nat) :
    data.getD i 0 < WORD_MOD := by
  rcases h : data[i]? with _ | w
  · simp only [List.getD_eq_getElem?_getD, h, Option.getD_none]
    simp [WORD_MOD]
  · have := hd w (List.getElem?_mem h)
    simp [List.getD_eq_getElem?_getD, h, this]

theorem and_not_lor_bit (x m : Nat) (hx : x < WORD_MOD) (hm : m < WORD_MOD) :
    (x &&& ((WORD_MOD - 1) ^^^ m)) ||| m = x ||| m := by
  simp only [WORD_MOD] at hx hm ⊢
  apply Nat.eq_of_testBit_eq
  intro i
  simp only [Nat.testBit_lor, Nat.testBit_land, Nat.testBit_xor,
    Nat.testBit_two_pow_sub_one]
  by_cases hi : i < 64
  · simp only [decide_eq_true hi]
    cases x.testBit i <;> cases m.testBit i <;> rfl
  · have hxi : x.testBit i = false :=
      Nat.testBit_lt_two_pow (lt_of_lt_of_le hx (Nat.pow_le_pow_right (by omega) (by omega)))
    have hmi : m.testBit i = false :=
      Nat.testBit_lt_two_pow (lt_of_lt_of_le hm (Nat.pow_le_pow_right (by omega) (by omega)))
    simp [hxi, hmi]

/-- With bucket width 1, writing value 1 at bucket `p` ORs bit `p` into the
word stream. -/
theorem Buckets.set_one_data (bk : Buckets) (hwf : bk.Wf) (hbs : bk.bucket_size = 1)
    (p : Nat) : (bk.set p 1).data = orBitAt bk.data p := by
  have hmax1 : bk.max = 1 := by
    rw [hwf.2.2.1, hbs]
    rfl
  show setWordAux bk.data (p * bk.bucket_size) bk.bucket_size
      (if 1 > bk.max then bk.max else 1) = _
  rw [hbs, hmax1, Nat.mul_one]
  rw [setWordAux, dif_neg (by omega)]
  unfold orBitAt
  congr 1
  have h1 : ((1 : Nat) <<< 1) - 1 = 1 := rfl
  rw [if_neg (by omega), h1]
  have hone : ((1 : Nat) &&& 1) = 1 := rfl
  rw [hone]
  exact and_not_lor_bit _ _ (getD_lt_of_bounded bk.data hwf.2.1 (p / 64))
    (by
      have : (1 : Nat) < 2 ^ 1 := by norm_num
      have h2 := shiftLeft_lt_shift (k := p % 64) this
      exact lt_of_lt_of_le h2 (by
        simp only [WORD_MOD]
        exact Nat.pow_le_pow_right (by omega) (by omega)))

theorem orBitAt_length (data : List Nat) (p : Nat) :
    (orBitAt data p).length = data.length := List.length_set ..

theorem wordOr_length (a b : List Nat) :
    (wordOr a b).length = min a.length b.length := List.length_zipWith ..

theorem wordOr_zeros (a : List Nat) : wordOr a (List.replicate a.length 0) = a := by
  induction a with
  | nil => rfl
  | cons x t ih =>
    simp only [List.length_cons, List.replicate_succ, wordOr, List.zipWith_cons_cons]
    rw [show (x ||| 0) = x by simp]
    exact congrArg _ ih

theorem wordOr_assoc (a b c : List Nat) :
    wordOr (wordOr a b) c = wordOr a (wordOr b c) := by
  induction a generalizing b c with
  | nil => rfl
  | cons x t ih =>
    cases b with
    | nil => rfl
    | cons y u =>
      cases c with
      | nil => rfl
      | cons z v =>
        simp only [wordOr, List.zipWith_cons_cons, lor_assoc_nat]
        exact congrArg _ (ih u v)

theorem orBitAt_wordOr_right (a b : List Nat) (hlen : a.length = b.length) (p : Nat) :
    orBitAt (wordOr a b) p = wordOr a (orBitAt b p) := by
  apply List.ext_getElem?
  intro i
  by_cases hwi : p / 64 < b.length
  · by_cases hi : i = p / 64
    · subst hi
      have hlw : p / 64 < (wordOr a b).length := by
        rw [wordOr_length]
        omega
      rw [show orBitAt (wordOr a b) p =
          (wordOr a b).set (p / 64) ((wordOr a b).getD (p / 64) 0 ||| 1 <<< (p % 64)) from rfl]
      rw [List.getElem?_set_self hlw]
      have hia : p / 64 < a.length := by omega
      have hav : a[p / 64]? = some (a[p / 64]) := List.getElem?_eq_getElem hia
      have hbv : b[p / 64]? = some (b[p / 64]) := List.getElem?_eq_getElem hwi
      have hgd : (wordOr a b).getD (p / 64) 0 = a[p / 64] ||| b[p / 64] := by
        simp [wordOr, List.getD_eq_getElem?_getD, List.getElem?_zipWith, hav, hbv]
      rw [hgd]
      show _ = (wordOr a (b.set (p / 64) (b.getD (p / 64) 0 ||| 1 <<< (p % 64))))[p / 64]?
      have hbd : b.getD (p / 64) 0 = b[p / 64] := by simp [List.getD_eq_getElem?_getD, hbv]
      rw [hbd]
      have hbv2 : (b.set (p / 64) (b[p / 64] ||| 1 <<< (p % 64)))[p / 64]? =
          some (b[p / 64] ||| 1 <<< (p % 64)) :=
        List.getElem?_set_self hwi
      simp only [wordOr, List.getElem?_zipWith, hav, hbv2]
      rw [lor_assoc_nat]
    · rw [show orBitAt (wordOr a b) p =
          (wordOr a b).set (p / 64) ((wordOr a b).getD (p / 64) 0 ||| 1 <<< (p % 64)) from rfl]
      rw [List.getElem?_set_ne (fun hcon => hi hcon.symm)]
      show (wordOr a b)[i]? = (wordOr a (b.set (p / 64) _))[i]?
      simp only [wordOr, List.getElem?_zipWith,
        List.getElem?_set_ne (fun hcon => hi hcon.symm)]
  · have hob : orBitAt b p = b := by
      unfold orBitAt
      exact List.set_eq_of_length_le (by omega)
    have how : orBitAt (wordOr a b) p = wordOr a b := by
      unfold orBitAt
      apply List.set_eq_of_length_le
      rw [wordOr_length]
      omega
    rw [hob, how]

theorem foldl_orBitAt_length (ps : List Nat) (d : List Nat) :
    (ps.foldl orBitAt d).length = d.length := by
  induction ps generalizing d with
  | nil => rfl
  | cons p t ih => rw [List.foldl_cons, ih, orBitAt_length]

theorem foldl_orBitAt_wordOr (ps : List Nat) (a b : List Nat) (hlen : a.length = b.length) :
    ps.foldl orBitAt (wordOr a b) = wordOr a (ps.foldl orBitAt b) := by
  induction ps generalizing b with
  | nil => rfl
  | cons p t ih =>
    simp only [List.foldl_cons]
    rw [orBitAt_wordOr_right a b hlen p, ih (orBitAt b p) (by rw [orBitAt_length]; exact hlen)]

/-- Word-list effect of a sequence of classic inserts, starting from word
list `d`. -/
def insertDataAll (seed k n : Nat) (xs : List Nat) (d : List Nat) : List Nat :=
  xs.foldl (fun a x => (probeList x seed k n).foldl orBitAt a) d

theorem insertDataAll_length (seed k n : Nat) (xs : List Nat) (d : List Nat) :
    (insertDataAll seed k n xs d).length = d.length := by
  induction xs generalizing d with
  | nil => rfl
  | cons x t ih =>
    show (insertDataAll seed k n t _).length = _
    rw [ih, foldl_orBitAt_length]

theorem foldl_set_one_data (ps : List Nat) (bk : Buckets) (hwf : bk.Wf)
    (hbs : bk.bucket_size = 1) :
    (ps.foldl (fun b i => b.set i 1) bk).data = ps.foldl orBitAt bk.data := by
  induction ps generalizing bk with
  | nil => rfl
  | cons p t ih =>
    simp only [List.foldl_cons]
    rw [ih (bk.set p 1) (Buckets.set_wf hwf p 1) hbs, Buckets.set_one_data bk hwf hbs p]

theorem ClassicFilter.insertP_data (f : ClassicFilter) (hwf : f.buckets.Wf)
    (hbs : f.buckets.bucket_size = 1) (x : Nat) :
    (f.insertP x).buckets.data =
      (probeList x f.hash_seed f.k f.buckets.count).foldl orBitAt f.buckets.data :=
  foldl_set_one_data _ _ hwf hbs

theorem ClassicFilter.insertAllP_data (f : ClassicFilter) (hwf : f.buckets.Wf)
    (hbs : f.buckets.bucket_size = 1) (xs : List Nat) :
    (f.insertAllP xs).buckets.data =
      insertDataAll f.hash_seed f.k f.buckets.count xs f.buckets.data := by
  induction xs generalizing f with
  | nil => rfl
  | cons x t ih =>
    show ((f.insertP x).insertAllP t).buckets.data = _
    rw [ih (f.insertP x) (ClassicFilter.insertP_wf f hwf x)
      (by rw [(ClassicFilter.insertP_fields f x).1]; exact hbs)]
    show insertDataAll f.hash_seed f.k (f.insertP x).buckets.count t
      (f.insertP x).buckets.data = _
    rw [ClassicFilter.insertP_count, ClassicFilter.insertP_data f hwf hbs x]
    rfl

/-- Inserting into an arbitrary base word list is the OR of the base with
the same inserts performed on the all-zero list. -/
theorem insertDataAll_or_zeros (seed k n : Nat) (xs : List Nat) (a : List Nat) :
    insertDataAll seed k n xs a =
      wordOr a (insertDataAll seed k n xs (List.replicate a.length 0)) := by
  induction xs generalizing a with
  | nil => exact (wordOr_zeros a).symm
  | cons x t ih =>
    show insertDataAll seed k n t ((probeList x seed k n).foldl orBitAt a) =
      wordOr a (insertDataAll seed k n t
        ((probeList x seed k n).foldl orBitAt (List.replicate a.length 0)))
    have hlenz : a.length = (List.replicate a.length (0 : Nat)).length := by simp
    have hstep : (probeList x seed k n).foldl orBitAt a =
        wordOr a ((probeList x seed k n).foldl orBitAt (List.replicate a.length 0)) := by
      conv_lhs => rw [← wordOr_zeros a]
      exact foldl_orBitAt_wordOr _ _ _ hlenz
    rw [hstep,
      ih (wordOr a ((probeList x seed k n).foldl orBitAt (List.replicate a.length 0)))]
    have hlen1 : (wordOr a ((probeList x seed k n).foldl orBitAt
        (List.replicate a.length 0))).length = a.length := by
      rw [wordOr_length, foldl_orBitAt_length]
      simp
    rw [hlen1, wordOr_assoc,
      ih ((probeList x seed k n).foldl orBitAt (List.replicate a.length 0))]
    have hlen2 : ((probeList x seed k n).foldl orBitAt
        (List.replicate a.length (0 : Nat))).length = a.length := by
      rw [foldl_orBitAt_length]
      simp
    rw [hlen2]

/-! ### Fresh arrays, get over wordOr, and width-7 increments -/

theorem streamBit_replicate_zero (n i : Nat) :
    streamBit (List.replicate n (0 : Nat)) i = false := by
  unfold streamBit
  rcases h : (List.replicate n (0 : Nat))[i / 64]? with _ | w
  · simp [List.getD_eq_getElem?_getD, h]
  · have : w = 0 := List.eq_of_mem_replicate (List.getElem?_mem h)
    simp [List.getD_eq_getElem?_getD, h, this]

theorem getWordAux_replicate_zero (n o l : Nat) :
    getWordAux (List.replicate n (0 : Nat)) o l = 0 := by
  apply Nat.eq_of_testBit_eq
  intro j
  rw [getWordAux_testBit, streamBit_replicate_zero]
  simp

theorem Buckets.new_get (count bucket_size : Nat) (b : Buckets)
    (hb : Buckets.new count bucket_size = some b) (k : Nat) : b.get k = 0 := by
  unfold Buckets.new at hb
  by_cases hbs : bucket_size < 8
  · rw [if_pos hbs] at hb
    cases hb
    unfold Buckets.get
    rw [getWordAux_replicate_zero]
  · rw [if_neg hbs] at hb
    cases hb

theorem Buckets.new_wf (count bucket_size : Nat) (b : Buckets)
    (hb : Buckets.new count bucket_size = some b) :
    b.Wf ∧ b.count = count ∧ b.bucket_size = bucket_size := by
  unfold Buckets.new at hb
  by_cases hbs : bucket_size < 8
  · rw [if_pos hbs] at hb
    cases hb
    refine ⟨⟨by simp, ?_, rfl, hbs⟩, rfl, rfl⟩
    intro w hw
    rw [List.eq_of_mem_replicate hw]
    simp [WORD_MOD]
  · rw [if_neg hbs] at hb
    cases hb

theorem streamBit_wordOr (a b : List Nat) (hlen : a.length = b.length) (i : Nat) :
    streamBit (wordOr a b) i = (streamBit a i || streamBit b i) := by
  unfold streamBit
  by_cases hi : i / 64 < a.length
  · have hib : i / 64 < b.length := by omega
    have hav : a[i / 64]? = some (a[i / 64]) := List.getElem?_eq_getElem hi
    have hbv : b[i / 64]? = some (b[i / 64]) := List.getElem?_eq_getElem hib
    simp [wordOr, List.getD_eq_getElem?_getD, List.getElem?_zipWith, hav, hbv,
      Nat.testBit_lor]
  · have hib : ¬(i / 64 < b.length) := by omega
    have hav : a[i / 64]? = none := List.getElem?_eq_none (by omega)
    have hbv : b[i / 64]? = none := List.getElem?_eq_none (by omega)
    simp [wordOr, List.getD_eq_getElem?_getD, List.getElem?_zipWith, hav, hbv]

theorem getWordAux_wordOr (a b : List Nat) (hlen : a.length = b.length) (o l : Nat) :
    getWordAux (wordOr a b) o l = getWordAux a o l ||| getWordAux b o l := by
  apply Nat.eq_of_testBit_eq
  intro j
  rw [Nat.testBit_lor, getWordAux_testBit, getWordAux_testBit, getWordAux_testBit,
    streamBit_wordOr a b hlen]
  cases decide (j < l) <;> simp

/-- Reading a 1-bit bucket of the elementwise OR of two word lists gives the
OR of the two reads. -/
theorem get_wordOr_one (a b : List Nat) (hlen : a.length = b.length)
    (countv p : Nat) :
    (Buckets.mk (wordOr a b) countv 1 1).get p =
      (Buckets.mk a countv 1 1).get p ||| (Buckets.mk b countv 1 1).get p := by
  unfold Buckets.get
  simp only
  rw [getWordAux_wordOr a b hlen]
  have h1 : getWordAux a (p * 1) 1 < 2 := getWordAux_lt ..
  have h2 : getWordAux b (p * 1) 1 < 2 := getWordAux_lt ..
  have h3 : getWordAux a (p * 1) 1 ||| getWordAux b (p * 1) 1 < 2 :=
    Nat.or_lt_two_pow (n := 1) h1 h2
  rw [Nat.mod_eq_of_lt (by omega), Nat.mod_eq_of_lt (by omega), Nat.mod_eq_of_lt (by omega)]

/-- Saturating behaviour of `increment` by 1 whenever the `i8` sum does not
overflow (covers width 7 below saturation). -/
theorem Buckets.get_increment_one_of_lt (b : Buckets) (hwf : b.Wf)
    (hbs : 0 < b.bucket_size) (k j : Nat) (hk : k < b.count)
    (hnov : b.get k + 1 < 128) :
    (b.increment k 1).get j = if j = k then min (b.get k + 1) b.max else b.get j := by
  obtain ⟨h1, h2, h3, h4⟩ := hwf
  have hb := Buckets.bucket_bound ⟨h1, h2, h3, h4⟩ hk
  have hmax2 : b.max = 2 ^ b.bucket_size - 1 := by rw [h3, one_shiftLeft_sub_one]
  have hvlt : b.get k < 2 ^ b.bucket_size := Buckets.get_lt b h4 k
  have hsmall : (2 : Nat) ^ b.bucket_size ≤ 128 :=
    le_trans (Nat.pow_le_pow_right (by omega) (show b.bucket_size ≤ 7 by omega))
      (by norm_num)
  have hv128 : b.get k < 128 := by omega
  have hm128 : b.max < 128 := by omega
  have hvmax : b.get k ≤ b.max := by omega
  have hstep : b.increment k 1 =
      b.set k (if b.get k + 1 > b.max then b.max else b.get k + 1) := by
    unfold Buckets.increment
    rw [toI8_of_lt hv128, toI8_of_lt hm128,
      wrap8_of_range (by omega) (by omega)]
    have hnn : ¬((b.get k : Int) + 1 < 0) := by omega
    simp only [hnn, if_false]
    by_cases hc : (b.get k : Int) + 1 > (b.max : Int)
    · have hcn : b.get k + 1 > b.max := by exact_mod_cast hc
      simp only [hc, if_true, hcn]
    · have hcn : ¬(b.get k + 1 > b.max) := by
        intro hcon
        exact hc (by exact_mod_cast hcon)
      simp only [hc, if_false, hcn]
      congr 1
  rw [hstep]
  by_cases hj : j = k
  · subst hj
    have hX : (if b.get j + 1 > b.max then b.max else b.get j + 1) =
        min (b.get j + 1) b.max := by
      split <;> omega
    rw [Buckets.get_set_self b hbs h4 h3 _ _ hb, hX, if_neg (by omega)]
    simp
  · rw [Buckets.get_set_ne b hbs h4 _ _ _ hj hb]
    simp [hj]

/-- Overflow behaviour of `increment` by 1 at a saturated 7-bit bucket: the
`i8` sum wraps to `-128` and the bucket is zeroed. -/
theorem Buckets.get_increment_one_overflow (b : Buckets) (hwf : b.Wf)
    (k : Nat) (hk : k < b.count) (hsat : b.get k = 127) :
    (b.increment k 1).get k = 0 := by
  obtain ⟨h1, h2, h3, h4⟩ := hwf
  have hb := Buckets.bucket_bound ⟨h1, h2, h3, h4⟩ hk
  have hvlt : b.get k < 2 ^ b.bucket_size := Buckets.get_lt b h4 k
  have hbs : 0 < b.bucket_size := by
    by_contra hcon
    have : b.bucket_size = 0 := by omega
    rw [this] at hvlt
    omega
  have hmax2 : b.max = 2 ^ b.bucket_size - 1 := by rw [h3, one_shiftLeft_sub_one]
  have hsmall : (2 : Nat) ^ b.bucket_size ≤ 128 :=
    le_trans (Nat.pow_le_pow_right (by omega) (show b.bucket_size ≤ 7 by omega))
      (by norm_num)
  have hm128 : b.max < 128 := by omega
  have hveq : wrap8 (toI8 (b.get k) + 1) = -128 := by
    rw [hsat, toI8_of_lt (by omega)]
    unfold wrap8
    decide
  have hstep : b.increment k 1 = b.set k 0 := by
    show b.set k
        (if wrap8 (toI8 (b.get k) + 1) < 0 then 0
          else if wrap8 (toI8 (b.get k) + 1) > toI8 b.max then b.max
          else (wrap8 (toI8 (b.get k) + 1)).toNat) = b.set k 0
    rw [hveq]
    norm_num
  rw [hstep, Buckets.get_set_self b hbs h4 h3 _ _ hb, if_neg (by omega)]

theorem Buckets.update_data (b : Buckets) (raw : List Nat) :
    (b.update raw).data = updateWords b.data (chunksOf8 raw) := rfl

/-- Updating with the serialization of an equal-length well-formed array ORs
the data words elementwise. -/
theorem Buckets.update_raw_data (b1 b2 : Buckets) (hlen : b1.data.length = b2.data.length)
    (hwf2 : ∀ w ∈ b2.data, w < WORD_MOD) :
    (b1.update b2.raw_data).data = wordOr b1.data b2.data := by
  rw [Buckets.update_data]
  unfold Buckets.raw_data
  exact updateWords_encode b1.data b2.data hlen hwf2

/-! ### Field preservation across insert sequences -/

theorem Buckets.ext_fields (a b : Buckets) (h1 : a.data = b.data) (h2 : a.count = b.count)
    (h3 : a.bucket_size = b.bucket_size) (h4 : a.max = b.max) : a = b := by
  cases a
  cases b
  simp_all

theorem ClassicFilter.insertAllP_count (f : ClassicFilter) (ys : List Nat) :
    (f.insertAllP ys).buckets.count = f.buckets.count := by
  induction ys generalizing f with
  | nil => rfl
  | cons y t ih =>
    show ((f.insertP y).insertAllP t).buckets.count = _
    rw [ih (f.insertP y), ClassicFilter.insertP_count]

theorem ClassicFilter.insertAllP_bucket_size (f : ClassicFilter) (ys : List Nat) :
    (f.insertAllP ys).buckets.bucket_size = f.buckets.bucket_size := by
  induction ys generalizing f with
  | nil => rfl
  | cons y t ih =>
    show ((f.insertP y).insertAllP t).buckets.bucket_size = _
    rw [ih (f.insertP y), (ClassicFilter.insertP_fields f y).1]

theorem ClassicFilter.insertAllP_max (f : ClassicFilter) (ys : List Nat) :
    (f.insertAllP ys).buckets.max = f.buckets.max := by
  induction ys generalizing f with
  | nil => rfl
  | cons y t ih =>
    show ((f.insertP y).insertAllP t).buckets.max = _
    rw [ih (f.insertP y), (ClassicFilter.insertP_fields f y).2.1]

theorem ClassicFilter.insertAllP_seed (f : ClassicFilter) (ys : List Nat) :
    (f.insertAllP ys).hash_seed = f.hash_seed := by
  induction ys generalizing f with
  | nil => rfl
  | cons y t ih => exact ih (f.insertP y)

theorem ClassicFilter.insertAllP_k (f : ClassicFilter) (ys : List Nat) :
    (f.insertAllP ys).k = f.k := by
  induction ys generalizing f with
  | nil => rfl
  | cons y t ih => exact ih (f.insertP y)

theorem ClassicFilter.insertAllP_wf (f : ClassicFilter) (hwf : f.buckets.Wf)
    (ys : List Nat) : (f.insertAllP ys).buckets.Wf := by
  induction ys generalizing f with
  | nil => exact hwf
  | cons y t ih => exact ih (f.insertP y) (ClassicFilter.insertP_wf f hwf y)

theorem CountingFilter.cnt_insertAllP_count (f : CountingFilter) (ys : List Nat) :
    (f.insertAllP ys).buckets.count = f.buckets.count := by
  induction ys generalizing f with
  | nil => rfl
  | cons y t ih =>
    show ((f.insertP y).insertAllP t).buckets.count = _
    rw [ih (f.insertP y), CountingFilter.cnt_insertP_count]

theorem CountingFilter.cnt_insertAllP_bucket_size (f : CountingFilter) (ys : List Nat) :
    (f.insertAllP ys).buckets.bucket_size = f.buckets.bucket_size := by
  induction ys generalizing f with
  | nil => rfl
  | cons y t ih =>
    show ((f.insertP y).insertAllP t).buckets.bucket_size = _
    rw [ih (f.insertP y), (CountingFilter.cnt_insertP_fields f y).1]

theorem CountingFilter.cnt_insertAllP_max (f : CountingFilter) (ys : List Nat) :
    (f.insertAllP ys).buckets.max = f.buckets.max := by
  induction ys generalizing f with
  | nil => rfl
  | cons y t ih =>
    show ((f.insertP y).insertAllP t).buckets.max = _
    rw [ih (f.insertP y), (CountingFilter.cnt_insertP_fields f y).2.1]

theorem CountingFilter.cnt_insertAllP_seed (f : CountingFilter) (ys : List Nat) :
    (f.insertAllP ys).hash_seed = f.hash_seed := by
  induction ys generalizing f with
  | nil => rfl
  | cons y t ih => exact ih (f.insertP y)

theorem CountingFilter.cnt_insertAllP_k (f : CountingFilter) (ys : List Nat) :
    (f.insertAllP ys).k = f.k := by
  induction ys generalizing f with
  | nil => rfl
  | cons y t ih => exact ih (f.insertP y)

theorem CountingFilter.cnt_insertAllP_wf (f : CountingFilter) (hwf : f.buckets.Wf)
    (ys : List Nat) : (f.insertAllP ys).buckets.Wf := by
  induction ys generalizing f with
  | nil => exact hwf
  | cons y t ih => exact ih (f.insertP y) (CountingFilter.cnt_insertP_wf f hwf y)

/-- After any sequence of classic inserts containing `x`, every probe bucket
of `x` holds 1. -/
theorem ClassicFilter.insertAllP_contains_mem (f : ClassicFilter) (hwf : f.buckets.Wf)
    (hbs : f.buckets.bucket_size = 1) (hn : 0 < f.buckets.count) (xs : List Nat)
    (x : Nat) (hx : x ∈ xs) (p : Nat)
    (hp : p ∈ probeList x f.hash_seed f.k f.buckets.count) :
    (f.insertAllP xs).buckets.get p = 1 := by
  obtain ⟨s, t, rfl⟩ := List.append_of_mem hx
  show ((s ++ x :: t).foldl ClassicFilter.insertP f).buckets.get p = 1
  rw [List.foldl_append, List.foldl_cons]
  have hwf1 : ((s.foldl ClassicFilter.insertP f).insertP x).buckets.Wf :=
    ClassicFilter.insertP_wf _ (ClassicFilter.insertAllP_wf f hwf s) x
  have hbs1 : ((s.foldl ClassicFilter.insertP f).insertP x).buckets.bucket_size = 1 := by
    rw [(ClassicFilter.insertP_fields _ x).1]
    show (f.insertAllP s).buckets.bucket_size = 1
    rw [ClassicFilter.insertAllP_bucket_size]
    exact hbs
  have hn1 : 0 < ((s.foldl ClassicFilter.insertP f).insertP x).buckets.count := by
    rw [ClassicFilter.insertP_count]
    show 0 < (f.insertAllP s).buckets.count
    rw [ClassicFilter.insertAllP_count]
    exact hn
  refine ClassicFilter.insertAllP_get_one _ hwf1 hbs1 hn1 p ?_ t
  show ((f.insertAllP s).insertP x).buckets.get p = 1
  rw [ClassicFilter.insertP_get _ (ClassicFilter.insertAllP_wf f hwf s)
    (by rw [ClassicFilter.insertAllP_bucket_size]; exact hbs)
    (by rw [ClassicFilter.insertAllP_count]; exact hn) x p]
  rw [if_pos]
  show p ∈ probeList x (f.insertAllP s).hash_seed (f.insertAllP s).k
    (f.insertAllP s).buckets.count
  rw [ClassicFilter.insertAllP_seed, ClassicFilter.insertAllP_k,
    ClassicFilter.insertAllP_count]
  exact hp

theorem chunksOf8_mem_sub (l : List Nat) :
    ∀ c ∈ chunksOf8 l, ∀ x ∈ c, x ∈ l := by
  suffices h : ∀ (len : Nat) (l : List Nat), l.length = len → ∀ c ∈ chunksOf8 l, ∀ x ∈ c, x ∈ l
    from h l.length l rfl
  intro len
  induction len using Nat.strong_induction_on with
  | _ len ih =>
    intro l hlen c hc x hx
    rw [chunksOf8] at hc
    by_cases hnil : l = []
    · rw [dif_pos hnil] at hc
      simp at hc
    · rw [dif_neg hnil] at hc
      rcases List.mem_cons.mp hc with hc1 | hc2
      · subst hc1
        exact List.mem_of_mem_take hx
      · have hlt : (l.drop 8).length < len := by
          rw [List.length_drop]
          have : l.length ≠ 0 := fun hz => hnil (List.eq_nil_of_length_eq_zero hz)
          omega
        exact List.mem_of_mem_drop (ih _ hlt (l.drop 8) rfl c hc2 x hx)

/-! ## The claims -/

/-- C1: for every bucket array created with bucket count `n ≥ 1` and width
`1 ≤ d ≤ 7` (the `Wf` invariant holds for every constructed and reachable
array), for every bucket `b < n` and value `v ≤ max_value`, after
`set(b, v)` the read `get(b)` returns `v` and every other bucket `b' < n`
reads the same value as before the call — the statement puts no alignment
restriction on the field, so it covers fields straddling a word boundary. -/
theorem claim_C1 (b : Buckets) (hwf : b.Wf) (hcount : 1 ≤ b.count)
    (hd1 : 1 ≤ b.bucket_size) (hd7 : b.bucket_size ≤ 7)
    (bucket v other : Nat) (hbucket : bucket < b.count) (hv : v ≤ b.max)
    (hother : other < b.count) (hne : other ≠ bucket) :
    (b.set bucket v).get bucket = v ∧ (b.set bucket v).get other = b.get other := by
  obtain ⟨h1, h2, h3, h4⟩ := hwf
  have hb := Buckets.bucket_bound ⟨h1, h2, h3, h4⟩ hbucket
  constructor
  · rw [Buckets.get_set_self b (by omega) h4 h3 _ _ hb, if_neg (by omega)]
  · exact Buckets.get_set_ne b (by omega) h4 _ _ _ hne hb

/-- Witness for C1 at a boundary-straddling field: 10 buckets of width 7,
bucket 9 occupies bits 63–69 and crosses the boundary of the two words. -/
theorem claim_C1_witness :
    ((Buckets.mk [5, 9] 10 7 127).set 9 100).get 9 = 100 ∧
      ((Buckets.mk [5, 9] 10 7 127).set 9 100).get 3 = (Buckets.mk [5, 9] 10 7 127).get 3 :=
  claim_C1 (Buckets.mk [5, 9] 10 7 127) (by decide) (by decide) (by decide) (by decide)
    9 100 3 (by decide) (by decide) (by decide) (by decide)

/-- C3: serialization round-trip — for every well-formed bucket array (any
count, any width below 8, arbitrary contents), deserializing the serialized
little-endian bytes with the same `(count, width)` reconstructs an equal
array, so `get(b)` matches the original on every bucket `b < count`. -/
theorem claim_C3 (b : Buckets) (hwf : b.Wf) :
    Buckets.with_raw_data b.count b.bucket_size b.raw_data = some b ∧
      ∀ b2, Buckets.with_raw_data b.count b.bucket_size b.raw_data = some b2 →
        ∀ k, k < b.count → b2.get k = b.get k := by
  have h := with_raw_data_raw_data b hwf
  refine ⟨h, ?_⟩
  intro b2 h2 k hk
  rw [h] at h2
  cases h2
  rfl

/-- Witness for C3 at the straddling 10-bucket, 7-bit array. -/
theorem claim_C3_witness :
    Buckets.with_raw_data 10 7 (Buckets.mk [5, 9] 10 7 127).raw_data =
      some (Buckets.mk [5, 9] 10 7 127) :=
  (claim_C3 (Buckets.mk [5, 9] 10 7 127) (by decide)).1

/-- C4: the default hash kernel drains into exactly `k` probe indices, the
`i`-th being `(seed + h1 + h2 * i) mod n` computed with wrapping 64-bit
unsigned arithmetic, where `h1`/`h2` are the low/high 32 bits of the one
64-bit digest; the sequence is the deterministic function `probeList` of
`(seed, n, k, digest)`, so two runs over the same inputs coincide. -/
theorem claim_C4 (digest seed k n : Nat) (hn : 0 < n) :
    hashProbes digest seed k n = some (probeList digest seed k n) ∧
      (probeList digest seed k n).length = k ∧
      ∀ i, i < k → (probeList digest seed k n).getD i 0 =
        (seed + digest % 2 ^ 32 + digest / 2 ^ 32 * i) % WORD_MOD % n := by
  refine ⟨hashProbes_eq_probeList digest seed k n hn, probeList_length .., ?_⟩
  intro i hi
  simp [probeList, List.getD_eq_getElem?_getD, List.getElem?_map, List.getElem?_range hi]

/-- Witness for C4 with a digest whose two 32-bit halves differ. -/
theorem claim_C4_witness :
    hashProbes 81985529216486895 3 4 97 = some (probeList 81985529216486895 3 4 97) :=
  (claim_C4 81985529216486895 3 4 97 (by decide)).1

/-- C8: construction fails exactly on the documented precondition violations:
`new` iff `bucket_size ≥ 8`; `with_fp_rate` additionally iff
`items_count = 0` or the false-positive rate lies outside `(0, 1)` (the rate
is modelled as a rational, the count the `f64` formula produces is
abstracted as `m` — failure does not depend on it); `with_raw_data`
additionally iff the byte length differs from
`ceil(count * width / 64) * 8`.  Every construction meeting the
preconditions succeeds. -/
theorem claim_C8 :
    (∀ count bucket_size : Nat, (Buckets.new count bucket_size).isSome ↔ bucket_size < 8) ∧
      (∀ (m items_count : Nat) (fp_rate : ℚ) (bucket_size : Nat),
        (Buckets.with_fp_rate m items_count fp_rate bucket_size).isSome ↔
          0 < items_count ∧ 0 < fp_rate ∧ fp_rate < 1 ∧ bucket_size < 8) ∧
      ∀ (count bucket_size : Nat) (raw : List Nat),
        (Buckets.with_raw_data count bucket_size raw).isSome ↔
          bucket_size < 8 ∧
            (count * bucket_size + (BITS_PER_WORD - 1)) / BITS_PER_WORD * 8 = raw.length := by
  refine ⟨?_, ?_, ?_⟩
  · intro count bucket_size
    unfold Buckets.new
    split <;> simp_all
  · intro m items fp bs
    unfold Buckets.with_fp_rate compute_m_num Buckets.new
    by_cases hg : 0 < items ∧ 0 < fp ∧ fp < 1
    · rw [if_pos hg]
      simp only [Option.some_bind]
      by_cases hbs : bs < 8
      · rw [if_pos hbs]
        simp [hbs, hg.1, hg.2.1, hg.2.2]
      · rw [if_neg hbs]
        simp [hbs]
    · rw [if_neg hg]
      simp only [Option.none_bind, Option.isSome_none]
      constructor
      · intro hcon
        cases hcon
      · intro hcon
        exact absurd ⟨hcon.1, hcon.2.1, hcon.2.2.1⟩ hg
  · intro count bs raw
    unfold Buckets.with_raw_data
    split <;> simp_all

/-- C9: a classic or counting filter whose hash kernel was built with
`k = 0` (reachable through `with_raw_data`, which takes `k` from the
caller; only the stable filter clamps `k` to at least 1) produces an empty
probe sequence, and `contains` is vacuously true for every item and every
bucket state — including a freshly constructed, never-inserted filter. -/
theorem claim_C9 :
    (∀ digest seed n : Nat, hashProbes digest seed 0 n = some []) ∧
      (∀ (f : ClassicFilter), f.k = 0 → ∀ x, f.contains x = some true) ∧
      ∀ (f : CountingFilter), f.k = 0 → ∀ x, f.contains x = some true := by
  have hp : ∀ digest seed n : Nat, hashProbes digest seed 0 n = some [] := by
    intro digest seed n
    rfl
  refine ⟨hp, ?_, ?_⟩
  · intro f hk x
    unfold ClassicFilter.contains
    rw [hk, hp]
    rfl
  · intro f hk x
    unfold CountingFilter.contains
    rw [hk, hp]
    rfl

/-- Witness for C9: a fresh classic filter with `k = 0` contains
everything. -/
theorem claim_C9_witness :
    (ClassicFilter.mk (Buckets.mk [0] 5 1 1) 7 0).contains 42 = some true :=
  claim_C9.2.1 (ClassicFilter.mk (Buckets.mk [0] 5 1 1) 7 0) rfl 42

/-- C10: the OR-merge `update` validates nothing — for every byte buffer,
words covered by a chunk of the buffer are OR-merged with that chunk's
little-endian value, words beyond the chunks stay untouched, bytes beyond
the backing words are ignored (the zip truncates), and the operation is
total — while `with_raw_data` rejects any size mismatch. -/
theorem claim_C10 (b : Buckets) (raw : List Nat) (hbytes : ∀ x ∈ raw, x < 256) :
    (b.update raw).data.length = b.data.length ∧
      (∀ i, i < b.data.length →
        (b.update raw).data.getD i 0 =
          if i < (chunksOf8 raw).length
          then b.data.getD i 0 ||| decodeLE ((chunksOf8 raw).getD i [])
          else b.data.getD i 0) ∧
      ∀ count bucket_size : Nat, bucket_size < 8 →
        (count * bucket_size + (BITS_PER_WORD - 1)) / BITS_PER_WORD * 8 ≠ raw.length →
        Buckets.with_raw_data count bucket_size raw = none := by
  refine ⟨?_, ?_, ?_⟩
  · rw [Buckets.update_data, updateWords_length]
  · intro i hi
    rw [Buckets.update_data, updateWords_getD _ _ _ hi]
    by_cases hc : i < (chunksOf8 raw).length
    · rw [if_pos hc, if_pos hc]
      have hcm : (chunksOf8 raw).getD i [] ∈ chunksOf8 raw := by
        rw [List.getD_eq_getElem?_getD, List.getElem?_eq_getElem hc]
        exact List.getElem_mem hc
      rw [updateWordAux_eq _ (fun x hx => hbytes x (chunksOf8_mem_sub raw _ hcm x hx))]
      rw [Nat.mul_zero, Nat.shiftLeft_zero]
    · rw [if_neg hc, if_neg hc]
  · intro count bs hbs hne
    unfold Buckets.with_raw_data
    rw [if_neg (by tauto)]

/-- Witness for C10 with a 2-byte buffer against a 2-word array. -/
theorem claim_C10_witness :
    ((Buckets.mk [1, 2] 10 1 1).update [255, 7]).data.length =
      (Buckets.mk [1, 2] 10 1 1).data.length :=
  (claim_C10 (Buckets.mk [1, 2] 10 1 1) [255, 7] (by decide)).1

/-- C2 (amended): no false negatives.  For the classic filter the claim
holds as stated: `contains(i)` is true immediately after `insert(i)` and
stays true after any further sequence of inserts.  For the counting filter
the same holds provided the bucket width is at most 6 — at width 7 an
insert reaching a bucket saturated at 127 overflows the `i8` addition
inside `increment` and zeroes the bucket (see the counterexample).  For the
stable filter the immediate postcondition holds for every value of the
random decay offset `r`, because the decay runs before the `k` probe
buckets are hard-set to `max_value ≥ 1`. -/
theorem claim_C2_amended :
    (∀ (f : ClassicFilter), f.buckets.Wf → f.buckets.bucket_size = 1 →
      0 < f.buckets.count → ∀ x ys,
        ((f.insert x).bind fun f1 => f1.contains x) = some true ∧
        ((f.insert x).bind fun f1 => (f1.insertAll ys).bind fun f2 => f2.contains x) =
          some true) ∧
    (∀ (f : CountingFilter), f.buckets.Wf → 0 < f.buckets.bucket_size →
      f.buckets.bucket_size ≤ 6 → 0 < f.buckets.count → ∀ x ys,
        ((f.insert x).bind fun f1 => f1.contains x) = some true ∧
        ((f.insert x).bind fun f1 => (f1.insertAll ys).bind fun f2 => f2.contains x) =
          some true) ∧
    ∀ (f : StableFilter), f.buckets.Wf → 0 < f.buckets.bucket_size →
      0 < f.buckets.count → ∀ r x,
        ((f.insert r x).bind fun f1 => f1.contains x) = some true := by
  refine ⟨?_, ?_, ?_⟩
  · intro f hwf hbs hn x ys
    have hn1 : 0 < (f.insertP x).buckets.count := by
      rw [ClassicFilter.insertP_count]
      exact hn
    have hwf1 := ClassicFilter.insertP_wf f hwf x
    have hbs1 : (f.insertP x).buckets.bucket_size = 1 := by
      rw [(ClassicFilter.insertP_fields f x).1]
      exact hbs
    have hget1 : ∀ p ∈ probeList x f.hash_seed f.k f.buckets.count,
        (f.insertP x).buckets.get p = 1 := by
      intro p hp
      rw [ClassicFilter.insertP_get f hwf hbs hn x p, if_pos hp]
    constructor
    · rw [ClassicFilter.insert_eq f hn x, Option.some_bind,
        ClassicFilter.contains_eq _ hn1 x]
      congr 1
      rw [List.all_eq_true]
      intro p hp
      rw [show (f.insertP x).hash_seed = f.hash_seed from rfl,
        show (f.insertP x).k = f.k from rfl, ClassicFilter.insertP_count] at hp
      rw [hget1 p hp]
      rfl
    · rw [ClassicFilter.insert_eq f hn x, Option.some_bind,
        ClassicFilter.insertAll_eq _ hn1 ys, Option.some_bind]
      have hn2 : 0 < ((f.insertP x).insertAllP ys).buckets.count := by
        rw [ClassicFilter.insertAllP_count]
        exact hn1
      rw [ClassicFilter.contains_eq _ hn2 x]
      congr 1
      rw [List.all_eq_true]
      intro p hp
      rw [show ((f.insertP x).insertAllP ys).hash_seed = (f.insertP x).hash_seed from
          ClassicFilter.insertAllP_seed ..,
        show ((f.insertP x).insertAllP ys).k = (f.insertP x).k from
          ClassicFilter.insertAllP_k ..,
        ClassicFilter.insertAllP_count,
        show (f.insertP x).hash_seed = f.hash_seed from rfl,
        show (f.insertP x).k = f.k from rfl, ClassicFilter.insertP_count] at hp
      rw [ClassicFilter.insertAllP_get_one (f.insertP x) hwf1 hbs1 hn1 p (hget1 p hp) ys]
      rfl
  · intro f hwf hbs hbs6 hn x ys
    have hn1 : 0 < (f.insertP x).buckets.count := by
      rw [CountingFilter.cnt_insertP_count]
      exact hn
    have hwf1 := CountingFilter.cnt_insertP_wf f hwf x
    have hbs1 : 0 < (f.insertP x).buckets.bucket_size := by
      rw [(CountingFilter.cnt_insertP_fields f x).1]
      exact hbs
    have hbs61 : (f.insertP x).buckets.bucket_size ≤ 6 := by
      rw [(CountingFilter.cnt_insertP_fields f x).1]
      exact hbs6
    have hget1 : ∀ p ∈ probeList x f.hash_seed f.k f.buckets.count,
        1 ≤ (f.insertP x).buckets.get p := by
      intro p hp
      exact CountingFilter.insertP_mem f hwf hbs hbs6 hn x p hp
    constructor
    · rw [CountingFilter.cnt_insert_eq f hn x, Option.some_bind,
        CountingFilter.cnt_contains_eq _ hn1 x]
      congr 1
      rw [List.all_eq_true]
      intro p hp
      rw [show (f.insertP x).hash_seed = f.hash_seed from rfl,
        show (f.insertP x).k = f.k from rfl, CountingFilter.cnt_insertP_count] at hp
      simp only [decide_eq_true_eq]
      exact lt_of_lt_of_le (by omega) (hget1 p hp)
    · rw [CountingFilter.cnt_insert_eq f hn x, Option.some_bind,
        CountingFilter.cnt_insertAll_eq _ hn1 ys, Option.some_bind]
      have hn2 : 0 < ((f.insertP x).insertAllP ys).buckets.count := by
        rw [CountingFilter.cnt_insertAllP_count]
        exact hn1
      rw [CountingFilter.cnt_contains_eq _ hn2 x]
      congr 1
      rw [List.all_eq_true]
      intro p hp
      rw [show ((f.insertP x).insertAllP ys).hash_seed = (f.insertP x).hash_seed from
          CountingFilter.cnt_insertAllP_seed ..,
        show ((f.insertP x).insertAllP ys).k = (f.insertP x).k from
          CountingFilter.cnt_insertAllP_k ..,
        CountingFilter.cnt_insertAllP_count,
        show (f.insertP x).hash_seed = f.hash_seed from rfl,
        show (f.insertP x).k = f.k from rfl, CountingFilter.cnt_insertP_count] at hp
      simp only [decide_eq_true_eq]
      exact lt_of_lt_of_le (by omega)
        (CountingFilter.insertAllP_pos (f.insertP x) hwf1 hbs1 hbs61 hn1 p
          (hget1 p hp) ys)
  · intro f hwf hbs hn r x
    have hdc : (f.decrementP r).buckets.count = f.buckets.count := foldl_incmod_count ..
    have hdb : (f.decrementP r).buckets.bucket_size = f.buckets.bucket_size :=
      foldl_incmod_bucket_size ..
    have hdm : (f.decrementP r).buckets.max = f.buckets.max := foldl_incmod_max ..
    have hdw : (f.decrementP r).buckets.Wf := foldl_incmod_wf _ _ _ hwf
    have hcnt : (f.insertP r x).buckets.count = f.buckets.count := by
      show ((stableProbeList x (f.decrementP r).k
          (f.decrementP r).buckets.count).foldl _ (f.decrementP r).buckets).count = _
      rw [foldl_set_count]
      exact hdc
    have hn2 : 0 < (f.insertP r x).buckets.count := by
      rw [hcnt]
      exact hn
    rw [StableFilter.stb_insert_eq f hn r x, Option.some_bind,
      StableFilter.stb_contains_eq _ hn2 x]
    congr 1
    rw [List.all_eq_true]
    intro p hp
    rw [show (f.insertP r x).k = f.k from rfl, hcnt] at hp
    have hps : stableProbeList x (f.decrementP r).k (f.decrementP r).buckets.count =
        stableProbeList x f.k f.buckets.count := by
      rw [show (f.decrementP r).k = f.k from rfl, hdc]
    have hget : (f.insertP r x).buckets.get p = (f.decrementP r).buckets.max := by
      show ((stableProbeList x (f.decrementP r).k
          (f.decrementP r).buckets.count).foldl
        (fun bk i => bk.set i (f.decrementP r).buckets.max)
        (f.decrementP r).buckets).get p = _
      rw [hps, foldl_set_get (f.decrementP r).buckets hdw (by rw [hdb]; exact hbs) _
        (by
          rw [hdc]
          exact stableProbeList_lt x f.k f.buckets.count hn) _ p,
        if_pos hp, if_neg (by omega)]
    have hmaxpos : 1 ≤ (f.decrementP r).buckets.max := by
      rw [hdm, hwf.2.2.1, one_shiftLeft_sub_one]
      have : 2 ≤ 2 ^ f.buckets.bucket_size :=
        le_trans (by norm_num) (Nat.pow_le_pow_right (by omega) hbs)
      omega
    simp only [decide_eq_true_eq]
    omega

/-- Value of bucket 0 of a 1-bucket, 7-bit counting filter after `j ≤ 127`
inserts of the digest 0: exactly `j` (each insert increments the single
probe bucket by 1 and no `i8` overflow occurs below 127). -/
theorem counting7_get (j : Nat) (hj : j ≤ 127) :
    ((CountingFilter.mk (Buckets.mk [0] 1 7 127) 0 1).insertAllP
        (List.replicate j 0)).buckets.get 0 = j := by
  induction j with
  | zero =>
    show getWordAux [0] (0 * 7) 7 % 256 = 0
    rw [show [(0 : Nat)] = List.replicate 1 (0 : Nat) from rfl, getWordAux_replicate_zero]
  | succ j ih =>
    have hj6 : j ≤ 126 := by omega
    have hget := ih (by omega)
    have hGw : ((CountingFilter.mk (Buckets.mk [0] 1 7 127) 0 1).insertAllP
        (List.replicate j 0)).buckets.Wf :=
      CountingFilter.cnt_insertAllP_wf _ (by decide) _
    have hGc : ((CountingFilter.mk (Buckets.mk [0] 1 7 127) 0 1).insertAllP
        (List.replicate j 0)).buckets.count = 1 := by
      rw [CountingFilter.cnt_insertAllP_count]
    have hGbs : ((CountingFilter.mk (Buckets.mk [0] 1 7 127) 0 1).insertAllP
        (List.replicate j 0)).buckets.bucket_size = 7 := by
      rw [CountingFilter.cnt_insertAllP_bucket_size]
    have hGm : ((CountingFilter.mk (Buckets.mk [0] 1 7 127) 0 1).insertAllP
        (List.replicate j 0)).buckets.max = 127 := by
      rw [CountingFilter.cnt_insertAllP_max]
    rw [List.replicate_succ']
    show (((List.replicate j 0 ++ [0]).foldl CountingFilter.insertP
        (CountingFilter.mk (Buckets.mk [0] 1 7 127) 0 1))).buckets.get 0 = j + 1
    rw [List.foldl_append]
    show ((((CountingFilter.mk (Buckets.mk [0] 1 7 127) 0 1).insertAllP
        (List.replicate j 0)).insertP 0)).buckets.get 0 = j + 1
    show ((probeList 0
        ((CountingFilter.mk (Buckets.mk [0] 1 7 127) 0 1).insertAllP
          (List.replicate j 0)).hash_seed
        ((CountingFilter.mk (Buckets.mk [0] 1 7 127) 0 1).insertAllP
          (List.replicate j 0)).k
        ((CountingFilter.mk (Buckets.mk [0] 1 7 127) 0 1).insertAllP
          (List.replicate j 0)).buckets.count).foldl
      (fun bk i => bk.increment i 1)
      ((CountingFilter.mk (Buckets.mk [0] 1 7 127) 0 1).insertAllP
        (List.replicate j 0)).buckets).get 0 = j + 1
    rw [CountingFilter.cnt_insertAllP_seed, CountingFilter.cnt_insertAllP_k, hGc,
      show probeList 0 0 1 1 = [0] by decide]
    show ((((CountingFilter.mk (Buckets.mk [0] 1 7 127) 0 1).insertAllP
        (List.replicate j 0)).buckets.increment 0 1)).get 0 = j + 1
    rw [Buckets.get_increment_one_of_lt _ hGw (by rw [hGbs]; omega) 0 0
      (by rw [hGc]; omega) (by rw [hget]; omega), if_pos rfl, hget, hGm]
    omega

/-- C2, counterexample: a counting filter with bucket width 7 violates the
no-false-negative property as stated — after 128 inserts of the same item
into a 1-bucket filter (`k = 1`), `contains` of that very item is false,
because the 128th insert overflows the `i8` addition in `increment`
(wrapping the bucket from 127 to 0 in release builds, panicking in debug
builds). -/
theorem claim_C2_counterexample :
    ((CountingFilter.mk (Buckets.mk [0] 1 7 127) 0 1).insertAll
        (List.replicate 128 0)).bind (fun f => f.contains 0) = some false := by
  have hn : 0 < (CountingFilter.mk (Buckets.mk [0] 1 7 127) 0 1).buckets.count := by decide
  rw [CountingFilter.cnt_insertAll_eq _ hn, Option.some_bind]
  have hget127 := counting7_get 127 (le_refl _)
  have hGw : ((CountingFilter.mk (Buckets.mk [0] 1 7 127) 0 1).insertAllP
      (List.replicate 127 0)).buckets.Wf :=
    CountingFilter.cnt_insertAllP_wf _ (by decide) _
  have hGc : ((CountingFilter.mk (Buckets.mk [0] 1 7 127) 0 1).insertAllP
      (List.replicate 127 0)).buckets.count = 1 := by
    rw [CountingFilter.cnt_insertAllP_count]
  have hget0 : ((CountingFilter.mk (Buckets.mk [0] 1 7 127) 0 1).insertAllP
      (List.replicate 128 0)).buckets.get 0 = 0 := by
    rw [show (128 : Nat) = 127 + 1 from rfl, List.replicate_succ']
    show (((List.replicate 127 0 ++ [0]).foldl CountingFilter.insertP
        (CountingFilter.mk (Buckets.mk [0] 1 7 127) 0 1))).buckets.get 0 = 0
    rw [List.foldl_append]
    show ((probeList 0
        ((CountingFilter.mk (Buckets.mk [0] 1 7 127) 0 1).insertAllP
          (List.replicate 127 0)).hash_seed
        ((CountingFilter.mk (Buckets.mk [0] 1 7 127) 0 1).insertAllP
          (List.replicate 127 0)).k
        ((CountingFilter.mk (Buckets.mk [0] 1 7 127) 0 1).insertAllP
          (List.replicate 127 0)).buckets.count).foldl
      (fun bk i => bk.increment i 1)
      ((CountingFilter.mk (Buckets.mk [0] 1 7 127) 0 1).insertAllP
        (List.replicate 127 0)).buckets).get 0 = 0
    rw [CountingFilter.cnt_insertAllP_seed, CountingFilter.cnt_insertAllP_k, hGc,
      show probeList 0 0 1 1 = [0] by decide]
    show ((((CountingFilter.mk (Buckets.mk [0] 1 7 127) 0 1).insertAllP
        (List.replicate 127 0)).buckets.increment 0 1)).get 0 = 0
    exact Buckets.get_increment_one_overflow _ hGw 0 (by rw [hGc]; omega) hget127
  have hn2 : 0 < ((CountingFilter.mk (Buckets.mk [0] 1 7 127) 0 1).insertAllP
      (List.replicate 128 0)).buckets.count := by
    rw [CountingFilter.cnt_insertAllP_count]
    exact hn
  rw [CountingFilter.cnt_contains_eq _ hn2 0]
  congr 1
  rw [CountingFilter.cnt_insertAllP_seed, CountingFilter.cnt_insertAllP_k,
    CountingFilter.cnt_insertAllP_count,
    show probeList 0 (CountingFilter.mk (Buckets.mk [0] 1 7 127) 0 1).hash_seed
      (CountingFilter.mk (Buckets.mk [0] 1 7 127) 0 1).k
      (CountingFilter.mk (Buckets.mk [0] 1 7 127) 0 1).buckets.count = [0] by decide]
  have hall : ∀ g : Nat → Bool, ([0] : List Nat).all g = g 0 := by
    intro g
    simp
  rw [hall, hget0]
  rfl

/-- Witness for the amended C2 at concrete classic, counting, and stable
filters. -/
theorem claim_C2_witness :
    (((ClassicFilter.mk (Buckets.mk [0] 5 1 1) 0 2).insert 3).bind
        fun f1 => f1.contains 3) = some true ∧
      (((CountingFilter.mk (Buckets.mk [0] 4 3 7) 0 2).insert 3).bind
        fun f1 => f1.contains 3) = some true ∧
      (((StableFilter.mk (Buckets.mk [0] 4 3 7) 2 1).insert 5 3).bind
        fun f1 => f1.contains 3) = some true :=
  ⟨(claim_C2_amended.1 (ClassicFilter.mk (Buckets.mk [0] 5 1 1) 0 2) (by decide) rfl
      (by decide) 3 []).1,
    (claim_C2_amended.2.1 (CountingFilter.mk (Buckets.mk [0] 4 3 7) 0 2) (by decide)
      (by decide) (by decide) (by decide) 3 []).1,
    claim_C2_amended.2.2 (StableFilter.mk (Buckets.mk [0] 4 3 7) 2 1) (by decide)
      (by decide) (by decide) 5 3⟩

/-- C5 (the code deviates from the claim): at a 7-bit bucket holding 127,
`increment(0, 1)` does not store `min(max(127 + 1, 0), max_value) = 127`:
the `i8` addition `self.get(bucket) as i8 + delta` overflows, wraps to
`-128` in release builds (and panics in debug builds), is clamped below at
0, and the bucket reads 0 afterwards.  The const-generics
`ConstBuckets::increment` uses `saturating_add` instead and its overflow
unit test pins the intended result 127. -/
theorem claim_C5 :
    (Buckets.mk [127] 3 7 127).get 0 = 127 ∧
      ((Buckets.mk [127] 3 7 127).increment 0 1).get 0 = 0 := by
  have hget : (Buckets.mk [127] 3 7 127).get 0 = 127 := by
    show getWordAux [127] (0 * 7) 7 % 256 = 127
    rw [getWordAux, dif_neg (by decide)]
    decide
  exact ⟨hget, Buckets.get_increment_one_overflow _ (by decide) 0 (by decide) hget⟩

/-- C6 (amended): provided the filter's bucket count `n` is at least 1, the
normal-path operations never fail — every probe index of both hash kernels
is strictly below `n`, every word index a bucket access touches is inside
the backing storage, and `insert`, `contains`, and `remove` all return a
value.  The precondition `n ≥ 1` is forced by the counterexample: a classic
filter built from an empty byte buffer has `n = 0` and its probe
computation divides by zero. -/
theorem claim_C6_amended (n : Nat) (hn : 1 ≤ n) :
    (∀ digest seed k, hashProbes digest seed k n = some (probeList digest seed k n) ∧
      ∀ p ∈ probeList digest seed k n, p < n) ∧
    (∀ digest k, stableProbes digest k n = some (stableProbeList digest k n) ∧
      ∀ p ∈ stableProbeList digest k n, p < n) ∧
    (∀ (b : Buckets), b.Wf → b.count = n → 0 < b.bucket_size → ∀ bucket, bucket < n →
      (bucket * b.bucket_size + b.bucket_size - 1) / 64 < b.data.length) ∧
    (∀ (f : ClassicFilter), f.buckets.count = n → ∀ x,
      (f.insert x).isSome ∧ (f.contains x).isSome) ∧
    (∀ (f : CountingFilter), f.buckets.count = n → ∀ x,
      (f.insert x).isSome ∧ (f.contains x).isSome ∧ (f.remove x).isSome) ∧
    ∀ (f : StableFilter), f.buckets.count = n → ∀ r x,
      (f.insert r x).isSome ∧ (f.contains x).isSome := by
  have hn0 : 0 < n := hn
  refine ⟨?_, ?_, ?_, ?_, ?_, ?_⟩
  · intro digest seed k
    exact ⟨hashProbes_eq_probeList digest seed k n hn0, probeList_lt digest seed k n hn0⟩
  · intro digest k
    exact ⟨stableProbes_eq_probeList digest k n hn0, stableProbeList_lt digest k n hn0⟩
  · intro b hwf hc hbs bucket hb
    have hbd := Buckets.bucket_bound hwf (show bucket < b.count by omega)
    have he : (bucket + 1) * b.bucket_size = bucket * b.bucket_size + b.bucket_size := by
      ring
    omega
  · intro f hc x
    constructor
    · rw [ClassicFilter.insert_eq f (by omega) x]
      rfl
    · rw [ClassicFilter.contains_eq f (by omega) x]
      rfl
  · intro f hc x
    refine ⟨?_, ?_, ?_⟩
    · rw [CountingFilter.cnt_insert_eq f (by omega) x]
      rfl
    · rw [CountingFilter.cnt_contains_eq f (by omega) x]
      rfl
    · unfold CountingFilter.remove
      rw [hashProbes_eq_probeList _ _ _ _ (by omega : 0 < f.buckets.count)]
      rfl
  · intro f hc r x
    constructor
    · rw [StableFilter.stb_insert_eq f (by omega) r x]
      rfl
    · rw [StableFilter.stb_contains_eq f (by omega) x]
      rfl

/-- C6, counterexample: `Filter::with_raw_data(&[], 1, …)` successfully
constructs a classic filter whose bucket count is 0; `contains` and
`insert` on it then fail (the probe computation is `wrapping_rem` by zero,
which panics in Rust — `none` in this model).  So "no panic or error is
reachable for any filter state" is false as stated. -/
theorem claim_C6_counterexample :
    ClassicFilter.with_raw_data [] 1 0 =
        some (ClassicFilter.mk (Buckets.mk [] 0 1 1) 0 1) ∧
      (ClassicFilter.mk (Buckets.mk [] 0 1 1) 0 1).contains 0 = none ∧
      (ClassicFilter.mk (Buckets.mk [] 0 1 1) 0 1).insert 0 = none := by
  refine ⟨?_, ?_, ?_⟩
  · unfold ClassicFilter.with_raw_data Buckets.with_raw_data
    rw [if_pos (by decide), chunksOf8, dif_pos rfl]
    rfl
  · rfl
  · rfl

/-- Witness for the amended C6 at `n = 5`. -/
theorem claim_C6_witness :
    hashProbes 7 3 2 5 = some (probeList 7 3 2 5) ∧
      ((ClassicFilter.mk (Buckets.mk [0] 5 1 1) 0 2).insert 3).isSome :=
  ⟨((claim_C6_amended 5 (by decide)).1 7 3 2).1,
    ((claim_C6_amended 5 (by decide)).2.2.2.1 (ClassicFilter.mk (Buckets.mk [0] 5 1 1) 0 2)
      rfl 3).1⟩

/-- C7: union of classic filters.  For two filters built with identical
`(bucket count, hash-kernel parameters)` on the same fresh array, after
`F1.update(F2.raw_data())` the bucket array of `F1` equals the wordwise
bitwise OR of the two original arrays; it is exactly the bucket array of
the filter obtained by inserting the union (concatenation) of the two item
sequences into a fresh filter; and it contains every item previously
inserted into `F1` or into `F2`. -/
theorem claim_C7 (n seed k : Nat) (hn : 0 < n) (bk0 : Buckets)
    (hbk0 : Buckets.new n 1 = some bk0) (xs ys : List Nat) (F1 F2 : ClassicFilter)
    (hF1 : (ClassicFilter.mk bk0 seed k).insertAll xs = some F1)
    (hF2 : (ClassicFilter.mk bk0 seed k).insertAll ys = some F2) :
    (F1.update F2.buckets.raw_data).buckets.data =
        wordOr F1.buckets.data F2.buckets.data ∧
      (∃ FU, (ClassicFilter.mk bk0 seed k).insertAll (xs ++ ys) = some FU ∧
        (F1.update F2.buckets.raw_data).buckets = FU.buckets) ∧
      (∀ x ∈ xs, (F1.update F2.buckets.raw_data).contains x = some true) ∧
      ∀ y ∈ ys, (F1.update F2.buckets.raw_data).contains y = some true := by
  obtain ⟨hwf0, hc0, hbs0⟩ := Buckets.new_wf n 1 bk0 hbk0
  have hn0 : 0 < (ClassicFilter.mk bk0 seed k).buckets.count := by
    show 0 < bk0.count
    omega
  have hbsA : (ClassicFilter.mk bk0 seed k).buckets.bucket_size = 1 := hbs0
  have hF1' : F1 = (ClassicFilter.mk bk0 seed k).insertAllP xs := by
    rw [ClassicFilter.insertAll_eq _ hn0 xs] at hF1
    exact (Option.some.inj hF1).symm
  have hF2' : F2 = (ClassicFilter.mk bk0 seed k).insertAllP ys := by
    rw [ClassicFilter.insertAll_eq _ hn0 ys] at hF2
    exact (Option.some.inj hF2).symm
  subst hF1'
  subst hF2'
  have hz : bk0.data = List.replicate bk0.data.length 0 := by
    unfold Buckets.new at hbk0
    rw [if_pos (by omega : (1 : Nat) < 8)] at hbk0
    cases hbk0
    simp
  have hd1 := ClassicFilter.insertAllP_data (ClassicFilter.mk bk0 seed k) hwf0 hbsA xs
  have hd2 := ClassicFilter.insertAllP_data (ClassicFilter.mk bk0 seed k) hwf0 hbsA ys
  have hlen1 : ((ClassicFilter.mk bk0 seed k).insertAllP xs).buckets.data.length =
      bk0.data.length := by
    rw [hd1, insertDataAll_length]
  have hlen2 : ((ClassicFilter.mk bk0 seed k).insertAllP ys).buckets.data.length =
      bk0.data.length := by
    rw [hd2, insertDataAll_length]
  have hwfF2 : ((ClassicFilter.mk bk0 seed k).insertAllP ys).buckets.Wf :=
    ClassicFilter.insertAllP_wf _ hwf0 ys
  have hwfF1 : ((ClassicFilter.mk bk0 seed k).insertAllP xs).buckets.Wf :=
    ClassicFilter.insertAllP_wf _ hwf0 xs
  have hbs1F : ((ClassicFilter.mk bk0 seed k).insertAllP xs).buckets.bucket_size = 1 := by
    rw [ClassicFilter.insertAllP_bucket_size]
    exact hbs0
  have hbs2F : ((ClassicFilter.mk bk0 seed k).insertAllP ys).buckets.bucket_size = 1 := by
    rw [ClassicFilter.insertAllP_bucket_size]
    exact hbs0
  have hmerged : (((ClassicFilter.mk bk0 seed k).insertAllP xs).update
      ((ClassicFilter.mk bk0 seed k).insertAllP ys).buckets.raw_data).buckets.data =
      wordOr ((ClassicFilter.mk bk0 seed k).insertAllP xs).buckets.data
        ((ClassicFilter.mk bk0 seed k).insertAllP ys).buckets.data :=
    Buckets.update_raw_data _ _ (by rw [hlen1, hlen2]) hwfF2.2.1
  have hkey : ∀ p, (((ClassicFilter.mk bk0 seed k).insertAllP xs).update
      ((ClassicFilter.mk bk0 seed k).insertAllP ys).buckets.raw_data).buckets.get p =
      ((ClassicFilter.mk bk0 seed k).insertAllP xs).buckets.get p |||
        ((ClassicFilter.mk bk0 seed k).insertAllP ys).buckets.get p := by
    intro p
    show getWordAux (((ClassicFilter.mk bk0 seed k).insertAllP xs).update
        ((ClassicFilter.mk bk0 seed k).insertAllP ys).buckets.raw_data).buckets.data
      (p * ((ClassicFilter.mk bk0 seed k).insertAllP xs).buckets.bucket_size)
      ((ClassicFilter.mk bk0 seed k).insertAllP xs).buckets.bucket_size % 256 = _
    rw [hmerged, hbs1F]
    show _ = getWordAux _ (p * ((ClassicFilter.mk bk0 seed k).insertAllP xs).buckets.bucket_size)
      ((ClassicFilter.mk bk0 seed k).insertAllP xs).buckets.bucket_size % 256 |||
      getWordAux _ (p * ((ClassicFilter.mk bk0 seed k).insertAllP ys).buckets.bucket_size)
      ((ClassicFilter.mk bk0 seed k).insertAllP ys).buckets.bucket_size % 256
    rw [hbs1F, hbs2F, getWordAux_wordOr _ _ (by rw [hlen1, hlen2])]
    have hA := getWordAux_lt ((ClassicFilter.mk bk0 seed k).insertAllP xs).buckets.data
      (p * 1) 1
    have hB := getWordAux_lt ((ClassicFilter.mk bk0 seed k).insertAllP ys).buckets.data
      (p * 1) 1
    have hAB := Nat.or_lt_two_pow (n := 1) hA hB
    rw [Nat.mod_eq_of_lt (by omega), Nat.mod_eq_of_lt (by omega),
      Nat.mod_eq_of_lt (by omega)]
  refine ⟨hmerged, ?_, ?_, ?_⟩
  · refine ⟨(ClassicFilter.mk bk0 seed k).insertAllP (xs ++ ys),
      ClassicFilter.insertAll_eq _ hn0 (xs ++ ys), ?_⟩
    apply Buckets.ext_fields
    · rw [hmerged, ClassicFilter.insertAllP_data (ClassicFilter.mk bk0 seed k) hwf0 hbsA
        (xs ++ ys)]
      show _ = ((xs ++ ys).foldl
        (fun a x => (probeList x (ClassicFilter.mk bk0 seed k).hash_seed
          (ClassicFilter.mk bk0 seed k).k
          (ClassicFilter.mk bk0 seed k).buckets.count).foldl orBitAt a) bk0.data)
      rw [List.foldl_append]
      show _ = insertDataAll (ClassicFilter.mk bk0 seed k).hash_seed
        (ClassicFilter.mk bk0 seed k).k (ClassicFilter.mk bk0 seed k).buckets.count ys
        (insertDataAll (ClassicFilter.mk bk0 seed k).hash_seed
          (ClassicFilter.mk bk0 seed k).k (ClassicFilter.mk bk0 seed k).buckets.count xs
          bk0.data)
      rw [insertDataAll_or_zeros, insertDataAll_length, ← hz, hd1, hd2]
    · show ((ClassicFilter.mk bk0 seed k).insertAllP xs).buckets.count = _
      rw [ClassicFilter.insertAllP_count, ClassicFilter.insertAllP_count]
    · show ((ClassicFilter.mk bk0 seed k).insertAllP xs).buckets.bucket_size = _
      rw [ClassicFilter.insertAllP_bucket_size, ClassicFilter.insertAllP_bucket_size]
    · show ((ClassicFilter.mk bk0 seed k).insertAllP xs).buckets.max = _
      rw [ClassicFilter.insertAllP_max, ClassicFilter.insertAllP_max]
  · intro x hx
    have hcm : 0 < (((ClassicFilter.mk bk0 seed k).insertAllP xs).update
        ((ClassicFilter.mk bk0 seed k).insertAllP ys).buckets.raw_data).buckets.count := by
      show 0 < ((ClassicFilter.mk bk0 seed k).insertAllP xs).buckets.count
      rw [ClassicFilter.insertAllP_count]
      exact hn0
    rw [ClassicFilter.contains_eq _ hcm x]
    congr 1
    rw [List.all_eq_true]
    intro p hp
    rw [show (((ClassicFilter.mk bk0 seed k).insertAllP xs).update
          ((ClassicFilter.mk bk0 seed k).insertAllP ys).buckets.raw_data).hash_seed =
        ((ClassicFilter.mk bk0 seed k).insertAllP xs).hash_seed from rfl,
      show (((ClassicFilter.mk bk0 seed k).insertAllP xs).update
          ((ClassicFilter.mk bk0 seed k).insertAllP ys).buckets.raw_data).k =
        ((ClassicFilter.mk bk0 seed k).insertAllP xs).k from rfl,
      show (((ClassicFilter.mk bk0 seed k).insertAllP xs).update
          ((ClassicFilter.mk bk0 seed k).insertAllP ys).buckets.raw_data).buckets.count =
        ((ClassicFilter.mk bk0 seed k).insertAllP xs).buckets.count from rfl,
      ClassicFilter.insertAllP_seed, ClassicFilter.insertAllP_k,
      ClassicFilter.insertAllP_count] at hp
    have hg1 : ((ClassicFilter.mk bk0 seed k).insertAllP xs).buckets.get p = 1 :=
      ClassicFilter.insertAllP_contains_mem _ hwf0 hbsA hn0 xs x hx p hp
    rw [hkey p, hg1]
    have h2lt : ((ClassicFilter.mk bk0 seed k).insertAllP ys).buckets.get p < 2 := by
      have := Buckets.get_lt ((ClassicFilter.mk bk0 seed k).insertAllP ys).buckets
        hwfF2.2.2.2 p
      rw [hbs2F] at this
      omega
    have hone : (1 : Nat) ||| ((ClassicFilter.mk bk0 seed k).insertAllP ys).buckets.get p =
        1 := by
      rcases (by omega :
          ((ClassicFilter.mk bk0 seed k).insertAllP ys).buckets.get p = 0 ∨
          ((ClassicFilter.mk bk0 seed k).insertAllP ys).buckets.get p = 1) with h | h <;>
        rw [h] <;> rfl
    rw [hone]
    rfl
  · intro y hy
    have hcm : 0 < (((ClassicFilter.mk bk0 seed k).insertAllP xs).update
        ((ClassicFilter.mk bk0 seed k).insertAllP ys).buckets.raw_data).buckets.count := by
      show 0 < ((ClassicFilter.mk bk0 seed k).insertAllP xs).buckets.count
      rw [ClassicFilter.insertAllP_count]
      exact hn0
    rw [ClassicFilter.contains_eq _ hcm y]
    congr 1
    rw [List.all_eq_true]
    intro p hp
    rw [show (((ClassicFilter.mk bk0 seed k).insertAllP xs).update
          ((ClassicFilter.mk bk0 seed k).insertAllP ys).buckets.raw_data).hash_seed =
        ((ClassicFilter.mk bk0 seed k).insertAllP xs).hash_seed from rfl,
      show (((ClassicFilter.mk bk0 seed k).insertAllP xs).update
          ((ClassicFilter.mk bk0 seed k).insertAllP ys).buckets.raw_data).k =
        ((ClassicFilter.mk bk0 seed k).insertAllP xs).k from rfl,
      show (((ClassicFilter.mk bk0 seed k).insertAllP xs).update
          ((ClassicFilter.mk bk0 seed k).insertAllP ys).buckets.raw_data).buckets.count =
        ((ClassicFilter.mk bk0 seed k).insertAllP xs).buckets.count from rfl,
      ClassicFilter.insertAllP_seed, ClassicFilter.insertAllP_k,
      ClassicFilter.insertAllP_count] at hp
    have hg2 : ((ClassicFilter.mk bk0 seed k).insertAllP ys).buckets.get p = 1 :=
      ClassicFilter.insertAllP_contains_mem _ hwf0 hbsA hn0 ys y hy p hp
    rw [hkey p, hg2]
    have h1lt : ((ClassicFilter.mk bk0 seed k).insertAllP xs).buckets.get p < 2 := by
      have := Buckets.get_lt ((ClassicFilter.mk bk0 seed k).insertAllP xs).buckets
        hwfF1.2.2.2 p
      rw [hbs1F] at this
      omega
    have hone : ((ClassicFilter.mk bk0 seed k).insertAllP xs).buckets.get p ||| 1 = 1 := by
      rcases (by omega :
          ((ClassicFilter.mk bk0 seed k).insertAllP xs).buckets.get p = 0 ∨
          ((ClassicFilter.mk bk0 seed k).insertAllP xs).buckets.get p = 1) with h | h <;>
        rw [h] <;> rfl
    rw [hone]
    rfl

/-- Witness for C7 with two fresh 5-bucket filters. -/
theorem claim_C7_witness :
    ((ClassicFilter.mk (Buckets.mk [0] 5 1 1) 0 1).update
        (Buckets.mk [0] 5 1 1).raw_data).buckets.data = wordOr [0] [0] :=
  (claim_C7 5 0 1 (by decide) (Buckets.mk [0] 5 1 1) rfl [] []
    (ClassicFilter.mk (Buckets.mk [0] 5 1 1) 0 1)
    (ClassicFilter.mk (Buckets.mk [0] 5 1 1) 0 1) rfl rfl).1

end BloomFilters
